import Mathlib

/-!
Verification of the trait-collection metadata generator (`generatorder.py`).

The Python source is shallowly embedded below.  Conventions used throughout:

* Python `float` weights are modelled as `Rat` (the program only adds,
  subtracts, multiplies, divides and compares weights).
* Python `dict`s are modelled as insertion-ordered association lists
  (`List (key × value)`); updating an existing key keeps its position,
  inserting a new key appends, exactly as CPython dictionaries behave.
* Python `set`s of integers are modelled as `List Nat`; only membership and
  emptiness of intersections are ever observed, so duplicates are harmless.
* `random.shuffle` and `random.choices` are modelled by an explicit oracle
  `rnd : Nat → Nat` of random draws together with a running position; a
  shuffle consumes one draw and applies the permutation it encodes, and a
  weighted choice consumes one draw and picks one of the candidates whose
  weight is positive (exactly the set of outcomes `random.choices` can
  produce when the weight total is positive).
* `sha256` content hashes of the canonical string representation are
  modelled by the canonical (type, name) sequence itself: the program only
  compares hashes for equality, and the spec asks for collision-freedom,
  not for any cryptographic property.
* The unbounded `while True` retry loop is modelled with explicit fuel;
  the termination theorem exhibits a concrete fuel bound that always
  suffices, which is the shallow-embedding rendering of "the loop
  terminates".
-/

unseal Rat.add Rat.sub Rat.mul Rat.inv

/-- Embeds the `TraitInfo` dataclass of `generatorder.py`. -/
structure TraitInfo where
  inscription_id : String
  number : Nat
  type : String
  name : String
  weight : Rat
  blacklist : List Nat
  whitelist : List Nat
deriving DecidableEq, Repr

/-- Catalog: trait-type name to the traits of that type, in insertion order;
the inner dictionary key `trait.name` is stored in the `name` field. -/
abbrev TraitsInfo := List (String × List TraitInfo)

/-- Reverse mapping from trait `number` to the trait. -/
abbrev TraitsMapping := List (Nat × TraitInfo)

/-- A formatted inscription: the (trait_type, value) pairs of the non-"none"
selected traits. -/
abbrev FormattedInscription := List (String × String)

/-- Association-list lookup, mirroring Python `d[k]` / `k in d`. -/
def alGet {κ β : Type} [DecidableEq κ] (l : List (κ × β)) (k : κ) : Option β :=
  (l.find? (fun p => decide (p.1 = k))).map (·.2)

/-- Association-list update-or-append, mirroring Python `d[k] = f(d.get(k))`:
an existing key keeps its position, a new key is appended. -/
def alUpdate {κ β : Type} [DecidableEq κ] (l : List (κ × β)) (k : κ) (f : Option β → β) :
    List (κ × β) :=
  match l with
  | [] => [(k, f none)]
  | (k', v) :: rest => if k' = k then (k, f (some v)) :: rest else (k', v) :: alUpdate rest k f

/-- Resolves the whitelist numbers of a trait to the referenced traits via
`trait_mapping`.  Python indexes `trait_mapping[w]` and raises `KeyError`
for an unmapped number; unmapped numbers are dropped here, and theorems
that depend on the resolution assume every number is mapped. -/
def resolveWhitelist (m : TraitsMapping) (t : TraitInfo) : List TraitInfo :=
  t.whitelist.filterMap (fun w => alGet m w)

/-- One trait's compilation loop with an explicit recursion bound: every
round drops at least the head of the remaining whitelist, so a bound equal
to the whitelist length makes the out-of-fuel branch unreachable (it is
kept structural so that the function evaluates inside the kernel). -/
def compileWhitelistAux (info : TraitsInfo) : Nat → List TraitInfo → TraitInfo →
    Option TraitInfo
  | _, [], t => some t
  | 0, _ :: _, _ => none
  | fuel + 1, w :: rest, t =>
    if w.type = t.type then none
    else
      let chunk := (w :: rest).filter (fun x => decide (x.type = w.type))
      let equiv := (((alGet info w.type).getD []).filter
        (fun x => decide (x ∉ chunk))).map (·.number)
      compileWhitelistAux info fuel ((w :: rest).filter (fun x => decide (x ∉ chunk)))
        { t with blacklist := t.blacklist ++ equiv }

/-- Embeds the `while len(whitelist) > 0` loop of
`convert_whitelist_to_blacklist` for one trait: repeatedly take the trait
type of the first remaining whitelisted trait, fail (Python raises) if it
equals the trait's own type, otherwise add to the blacklist the numbers of
all traits of that type outside the whitelisted chunk, and drop the chunk. -/
def compileWhitelist (info : TraitsInfo) (ws : List TraitInfo) (t : TraitInfo) :
    Option TraitInfo :=
  compileWhitelistAux info ws.length ws t

/-- Embeds `convert_whitelist_to_blacklist`: compile every trait of every
group; `none` models the `ConstraintConflict` exception for a same-type
whitelist target. -/
def convert_whitelist_to_blacklist (info : TraitsInfo) (m : TraitsMapping) :
    Option TraitsInfo :=
  info.mapM (fun p =>
    (p.2.mapM (fun t => compileWhitelist info (resolveWhitelist m t) t)).map
      (fun g => (p.1, g)))

/-- Embeds `validate_traits`: every selected trait's blacklist must not hit
another selected trait.  Python indexes `trait_number_mapping[b]` and would
raise `KeyError` for an unmapped blacklist number; an unmapped number is
treated as conflict-free here, and the theorems that rely on this function
assume the mapping resolves the numbers they need. -/
def validate_traits (selected : List TraitInfo) (m : TraitsMapping) : Bool :=
  selected.all fun t => t.blacklist.all fun b =>
    match alGet m b with
    | some bt => !(selected.any (fun s => decide (s = bt)))
    | none => true

/-- One entry of the auditor's inconsistency report. -/
structure Inconsistency where
  inscriptionNumber : Nat
  traitType : String
  traitName : String
  conflicts : List Nat
deriving DecidableEq, Repr

/-- Looks a formatted trait up in the catalog,
`all_traits_info[trait_type][value]`.  Python raises `KeyError` when the
keys are absent; the lookup is optional here and an absent key produces no
inconsistency (the theorems about generated collections assume a coherent
catalog, under which every lookup succeeds). -/
def lookupTrait (info : TraitsInfo) (ty nm : String) : Option TraitInfo :=
  (alGet info ty).bind (fun g => g.find? (fun t => decide (t.name = nm)))

/-- The trait numbers of one formatted inscription
(`current_inscription_trait_numbers`). -/
def inscriptionNumbers (info : TraitsInfo) (ins : FormattedInscription) : List Nat :=
  ins.filterMap (fun ft => (lookupTrait info ft.1 ft.2).map (·.number))

/-- Audits one inscription: one inconsistency per formatted trait whose
blacklist intersects the inscription's trait numbers. -/
def auditInscription (info : TraitsInfo) (idx : Nat) (ins : FormattedInscription) :
    List Inconsistency :=
  ins.filterMap fun ft =>
    match lookupTrait info ft.1 ft.2 with
    | none => none
    | some t =>
      let conflicting := (inscriptionNumbers info ins).filter (fun n => decide (n ∈ t.blacklist))
      if conflicting = [] then none
      else some ⟨idx, t.type, t.name, conflicting⟩

/-- Embeds `validate_inscription_avoidance`, the post-hoc auditor
(inscriptions are numbered from 1). -/
def validate_inscription_avoidance (coll : List FormattedInscription) (info : TraitsInfo) :
    List Inconsistency :=
  (coll.enum.map (fun p => auditInscription info (p.1 + 1) p.2)).flatten

/-- One spreadsheet row of `traits_info.xlsx` after cell parsing: the loader
embedding starts from parsed rows (blank/merged rows skipped, numeric cells
parsed, the comma-separated blacklist and whitelist cells run through
`parse_int_set`); a blank rarity cell is `none`. -/
structure SheetRow where
  trait_number : Nat
  trait_type : String
  trait_name : String
  rarity : Option Rat
  blacklist : List Nat
  whitelist : List Nat
  inscription_id : String
deriving DecidableEq, Repr

/-- The raw weight of a row: `weight = 1`, overridden by a non-blank rarity. -/
def rowWeight (r : SheetRow) : Rat := r.rarity.getD 1

/-- Row-level checks of `load_traits_info` that can fail after parsing: a
negative rarity, or a number that is both whitelisted and blacklisted.
Any failure makes the loader print the errors and `exit()`. -/
def rowOk (r : SheetRow) : Bool :=
  decide (0 ≤ rowWeight r) && decide (∀ w ∈ r.whitelist, w ∉ r.blacklist)

/-- The `TraitInfo` built from one row (weights still raw). -/
def rowTrait (r : SheetRow) : TraitInfo :=
  ⟨r.inscription_id, r.trait_number, r.trait_type, r.trait_name, rowWeight r,
   r.blacklist, r.whitelist⟩

/-- Inner-dictionary insertion `all_traits_info[type][name] = trait`:
replace the trait with the same name in place, else append. -/
def insertByName (g : List TraitInfo) (t : TraitInfo) : List TraitInfo :=
  match g with
  | [] => [t]
  | u :: rest => if u.name = t.name then t :: rest else u :: insertByName rest t

/-- Catalog insertion of one row's trait. -/
def insertTrait (info : TraitsInfo) (t : TraitInfo) : TraitsInfo :=
  alUpdate info t.type (fun o => insertByName (o.getD []) t)

/-- Accumulates `cumulative_weights[trait_type] += weight` for one row. -/
def addCumulative (cw : List (String × Rat)) (r : SheetRow) : List (String × Rat) :=
  alUpdate cw r.trait_type (fun o => o.getD 0 + rowWeight r)

/-- The final per-type weight normalisation of `load_traits_info`: each
trait's weight is divided by its type's cumulative raw weight.  Python
iterates over `cumulative_weights` mutating `all_traits_info[trait_type]`;
since every catalog type has a cumulative entry, iterating over the catalog
is the same update.  (With a cumulative weight of 0 Python would raise
`ZeroDivisionError`; `Rat` division by zero yields 0.) -/
def normalizeWeights (info : TraitsInfo) (cw : List (String × Rat)) : TraitsInfo :=
  info.map (fun p => (p.1, p.2.map
    (fun t => { t with weight := t.weight / ((alGet cw p.1).getD 0) })))

/-- Embeds `load_traits_info` on parsed rows: build the catalog, the
number-to-trait mapping and the cumulative weights row by row, compile
whitelists into blacklists, then normalise weights.  `none` models the
error `exit()` paths (row errors or a same-type whitelist conflict).  The
returned number mapping of the Python function aliases the same trait
records and is not separately modelled; no claim depends on it. -/
def load_traits_info (rows : List SheetRow) : Option TraitsInfo :=
  if rows.all rowOk then
    let info := rows.foldl (fun i r => insertTrait i (rowTrait r)) []
    let m := rows.foldl (fun mm r => alUpdate mm r.trait_number (fun _ => rowTrait r)) []
    let cw := rows.foldl addCumulative []
    (convert_whitelist_to_blacklist info m).map (fun info2 => normalizeWeights info2 cw)
  else none

/-- Removes the element at index `i`, returning it and the remainder. -/
def pickIdx {α : Type} : List α → Nat → Option (α × List α)
  | [], _ => none
  | a :: as, 0 => some (a, as)
  | a :: as, i + 1 => (pickIdx as i).map (fun p => (p.1, a :: p.2))

/-- Applies at most `n` removal rounds of the permutation encoded by `s`. -/
def permAux {α : Type} : Nat → Nat → List α → List α
  | 0, _, l => l
  | n + 1, s, l =>
    match pickIdx l (s % l.length) with
    | none => l
    | some (a, rest) => a :: permAux n (s / (l.length + 1)) rest

/-- Models `random.shuffle`: the draw `s` encodes which permutation is
applied (every permutation of the list is reachable for a suitable draw). -/
def permOfSeed {α : Type} (s : Nat) (l : List α) : List α :=
  permAux l.length s l

/-- Models one draw of `random.choices(items, weights)` with positive total
weight: only the candidates with positive weight can be produced, and the
draw `s` selects among them.  `none` corresponds to the `ValueError` that
`random.choices` raises when no weight is positive (the caller checks the
total first, so this is unreachable in the generator). -/
def chooseWeighted {α : Type} (s : Nat) (items : List (α × Rat)) : Option α :=
  match items.filter (fun p => decide (0 < p.2)) with
  | [] => none
  | p :: ps => some (((p :: ps).getD (s % (p :: ps).length) p).1)

/-- A usage-ledger entry `{"count": …, "rarity": …}`; the rarity string
`f"{weight * 100:.2f}"` is modelled by the number it renders. -/
structure UsageEntry where
  count : Nat
  rarity : Rat
deriving DecidableEq, Repr

/-- The usage ledger `traits_usage`: type name to trait name to entry. -/
abbrev UsageLedger := List (String × List (String × UsageEntry))

/-- The initial usage ledger built from the catalog (all counts 0). -/
def initUsage (info : TraitsInfo) : UsageLedger :=
  info.map (fun p => (p.1, p.2.map (fun t => (t.name, ⟨0, t.weight * 100⟩))))

/-- Reads `traits_usage[ty][nm]["count"]` (0 when the keys are absent,
which cannot happen for catalog traits against `initUsage`). -/
def usageCount (u : UsageLedger) (ty nm : String) : Nat :=
  match (alGet u ty).bind (fun g => alGet g nm) with
  | some e => e.count
  | none => 0

/-- Embeds the dynamic weight computed for one available trait: 0 for a
zero-weight trait, otherwise `max(0, num * weight - count) + 1`. -/
def dynamicWeight (numIns : Nat) (u : UsageLedger) (t : TraitInfo) : Rat :=
  if t.weight = 0 then 0
  else max 0 ((numIns : Rat) * t.weight - (usageCount u t.type t.name : Rat)) + 1

/-- Embeds the `available_traits` filter: not on the accumulated avoid list,
and the trait's blacklist does not hit an already chosen trait. -/
def availableTraits (avoid : List Nat) (chosen : List TraitInfo) (g : List TraitInfo) :
    List TraitInfo :=
  g.filter (fun t => decide (t.number ∉ avoid) &&
    t.blacklist.all (fun b => decide (b ∉ chosen.map (·.number))))

/-- Embeds the per-attempt selection loop over the shuffled trait groups:
returns the chosen traits (`inscription_traits`) or `none` when
`valid_combination` becomes false, together with the next oracle position. -/
def selectTraits (numIns : Nat) (u : UsageLedger) (rnd : Nat → Nat) :
    List (List TraitInfo) → List TraitInfo → List Nat → Nat →
    Option (List TraitInfo) × Nat
  | [], chosen, _, pos => (some chosen, pos)
  | g :: gs, chosen, avoid, pos =>
    match availableTraits avoid chosen g with
    | [] => (none, pos)
    | a :: as =>
      let avail := a :: as
      let ws := avail.map (dynamicWeight numIns u)
      if ws.sum = 0 then (none, pos)
      else
        match chooseWeighted (rnd pos) (avail.zip ws) with
        | none => (none, pos)
        | some t => selectTraits numIns u rnd gs (chosen ++ [t]) (avoid ++ t.blacklist) (pos + 1)

/-- The `ordered_traits` list: the trait type of the first trait of each
group (`list(x.values())[0].type`); an empty group — which `load_traits_info`
never builds, and on which Python would raise `IndexError` — contributes
the empty string. -/
def orderedTypes (info : TraitsInfo) : List String :=
  info.map (fun p => (p.2.head?.map (·.type)).getD "")

/-- Sorts the selected traits by catalog declaration order of their type,
`inscription_traits.sort(key=…)`.  CPython's `list.sort` is a stable
ascending sort, and a stable sort's output is uniquely determined by the
comparator, so insertion sort — also stable — computes exactly the same
list. -/
def sortedSelection (info : TraitsInfo) (sel : List TraitInfo) : List TraitInfo :=
  sel.insertionSort (fun a b =>
    (orderedTypes info).indexOf a.type ≤ (orderedTypes info).indexOf b.type)

/-- The canonical signature of a selection: the (type, name) pairs of the
sorted traits.  The program hashes `str` of this sequence with sha256 and
only ever compares hashes; the sequence itself stands in for the hash. -/
def canonicalSig (info : TraitsInfo) (sel : List TraitInfo) : List (String × String) :=
  (sortedSelection info sel).map (fun t => (t.type, t.name))

/-- The formatted inscription of a selection: the (type, name) pairs of the
non-"none" traits (built alongside the selection in Python), sorted the
same way as the selection. -/
def formattedOf (info : TraitsInfo) (sel : List TraitInfo) : FormattedInscription :=
  ((sel.filter (fun t => decide (t.name ≠ "none"))).map
    (fun t => (t.type, t.name))).insertionSort
    (fun a b => (orderedTypes info).indexOf a.1 ≤ (orderedTypes info).indexOf b.1)

/-- The mutable state of `generate_inscriptions`. -/
structure GenState where
  collection : List FormattedInscription
  usage : UsageLedger
  hashes : List (List (String × String))
  dist : List (Nat × Nat)
deriving DecidableEq, Repr

/-- Bumps `traits_usage[ty][nm]["count"]` (no-op on absent keys, which
cannot happen for catalog traits). -/
def bumpUsage (u : UsageLedger) (t : TraitInfo) : UsageLedger :=
  u.map (fun p => if p.1 = t.type then
    (p.1, p.2.map (fun q => if q.1 = t.name then (q.1, ⟨q.2.count + 1, q.2.rarity⟩) else q))
    else p)

/-- Bumps `trait_count_distribution[k]`. -/
def bumpDist (d : List (Nat × Nat)) (k : Nat) : List (Nat × Nat) :=
  alUpdate d k (fun o => o.getD 0 + 1)

/-- Commits a validated selection: bump the usage count of every selected
trait, record the trait count, append the formatted inscription. -/
def commitSelection (info : TraitsInfo) (st : GenState) (sel : List TraitInfo) : GenState :=
  { st with
    usage := (sortedSelection info sel).foldl bumpUsage st.usage
    dist := bumpDist st.dist (sortedSelection info sel).length
    collection := st.collection ++ [formattedOf info sel] }

/-- Embeds the per-item `while True` loop.  One iteration: shuffle the trait
groups (one oracle draw), run the selection, and then
  * a dead end or a duplicate signature bumps the attempt counter and, at
    10000, abandons the item (`some (false, …)`, the early-`return` path);
  * a fresh signature is registered in `generated_hashes` *before* the
    defensive `validate_traits` re-check; a passing re-check commits
    (`some (true, …)`), a failing one loops with the counter unchanged.
`none` means the explicit fuel ran out, never a behaviour of the program
(see the termination theorem). -/
def itemLoop (info : TraitsInfo) (m : TraitsMapping) (numIns : Nat) (rnd : Nat → Nat) :
    Nat → GenState → Nat → Nat → Option (Bool × GenState × Nat)
  | 0, _, _, _ => none
  | fuel + 1, st, attempts, pos =>
    match selectTraits numIns st.usage rnd (permOfSeed (rnd pos) (info.map (·.2))) [] []
        (pos + 1) with
    | (none, pos2) =>
      if 10000 ≤ attempts + 1 then some (false, st, pos2)
      else itemLoop info m numIns rnd fuel st (attempts + 1) pos2
    | (some sel, pos2) =>
      if canonicalSig info sel ∈ st.hashes then
        if 10000 ≤ attempts + 1 then some (false, st, pos2)
        else itemLoop info m numIns rnd fuel st (attempts + 1) pos2
      else
        let st2 := { st with hashes := canonicalSig info sel :: st.hashes }
        if validate_traits (sortedSelection info sel) m then
          some (true, commitSelection info st2 sel, pos2)
        else itemLoop info m numIns rnd fuel st2 attempts pos2

/-- One entry of the final usage-statistics table: the count and percentage
rendered by `f"{count} ({pct:.2f}%)"`, the echoed rarity input, and for the
"none" trait its used/unused flag.  (With zero committed items Python would
raise `ZeroDivisionError` computing the percentage; `Rat` yields 0.) -/
structure StatEntry where
  usageCountVal : Nat
  usagePct : Rat
  rarityInput : Rat
  noneUsed : Option Bool
deriving DecidableEq, Repr

/-- The formatted statistics table `traits_usage_statistics`. -/
abbrev UsageStats := List (String × List (String × StatEntry))

/-- Embeds the statistics summarisation at the end of
`generate_inscriptions`. -/
def computeStats (u : UsageLedger) : UsageStats :=
  u.map fun p =>
    (p.1, p.2.map fun q =>
      (q.1, ⟨q.2.count, (q.2.count : Rat) / ((p.2.map (fun e => e.2.count)).sum : Rat) * 100,
             q.2.rarity, if q.1 = "none" then some (decide (0 < q.2.count)) else none⟩))

/-- The triple returned by `generate_inscriptions`; the second component is
either the raw usage ledger (early abandonment return) or the formatted
statistics table (normal completion). -/
structure GenResult where
  collection : List FormattedInscription
  usageOut : UsageLedger ⊕ UsageStats
  dist : List (Nat × Nat)
deriving DecidableEq, Repr

/-- Embeds the outer `for _ in range(num_inscriptions)` loop.  All items
committed: shuffle the collection (one oracle draw) and format the
statistics.  An abandoned item: return the partial collection, the raw
ledger and the distribution immediately — without the final shuffle. -/
def genLoop (info : TraitsInfo) (m : TraitsMapping) (numIns : Nat) (rnd : Nat → Nat)
    (fuel : Nat) : Nat → GenState → Nat → Option GenResult
  | 0, st, pos => some ⟨permOfSeed (rnd pos) st.collection, Sum.inr (computeStats st.usage), st.dist⟩
  | n + 1, st, pos =>
    match itemLoop info m numIns rnd fuel st 0 pos with
    | none => none
    | some (true, st2, pos2) => genLoop info m numIns rnd fuel n st2 pos2
    | some (false, st2, _) => some ⟨st2.collection, Sum.inl st2.usage, st2.dist⟩

/-- The initial generator state. -/
def initState (info : TraitsInfo) : GenState := ⟨[], initUsage info, [], []⟩

/-- Embeds `generate_inscriptions(all_traits_info, trait_number_mapping,
num_inscriptions)`; `rnd`/`pos` is the randomness oracle and `fuel` bounds
the per-item retry loop unrolling (see the termination theorem for a fuel
that always suffices). -/
def generate_inscriptions (info : TraitsInfo) (m : TraitsMapping) (numIns fuel : Nat)
    (rnd : Nat → Nat) (pos : Nat) : Option GenResult :=
  genLoop info m numIns rnd fuel numIns (initState info) pos

/-! Concrete catalogs used by counterexamples and witnesses. -/

/-- A one-trait catalog with weight 1 (witness catalog). -/
def tWitness : TraitInfo := ⟨"", 1, "A", "x", 1, [], []⟩

/-- Witness catalog: one trait type with one positive-weight trait. -/
def infoWitness : TraitsInfo := [("A", [tWitness])]

/-- Witness number mapping. -/
def mapWitness : TraitsMapping := [(1, tWitness)]

/-- The all-zeros randomness oracle. -/
def rndZero : Nat → Nat := fun _ => 0

/-- A sole trait with zero weight (counterexample to the weight floor). -/
def tZero : TraitInfo := ⟨"", 1, "A", "x", 0, [], []⟩

/-- Counterexample catalog: one trait type whose only trait has weight 0. -/
def infoZero : TraitsInfo := [("A", [tZero])]

/-- Number mapping of the zero-weight catalog. -/
def mapZero : TraitsMapping := [(1, tZero)]

/-! Helper lemmas about the abandonment path. -/

/-- When every attempt's selection dead-ends (at the very first trait group,
advancing the oracle by one position per attempt), the per-item loop counts
attempts up to 10000 and abandons with the state untouched. -/
theorem itemLoop_allFail (info : TraitsInfo) (m : TraitsMapping) (numIns : Nat)
    (rnd : Nat → Nat) (st : GenState)
    (H : ∀ p, selectTraits numIns st.usage rnd (permOfSeed (rnd p) (info.map (·.2))) [] []
      (p + 1) = (none, p + 1)) :
    ∀ fuel attempts pos, attempts < 10000 → 10000 - attempts ≤ fuel →
      itemLoop info m numIns rnd fuel st attempts pos
        = some (false, st, pos + (10000 - attempts)) := by
  intro fuel
  induction fuel with
  | zero => intro attempts pos h1 h2; omega
  | succ n ih =>
    intro attempts pos h1 h2
    simp only [itemLoop, H pos]
    by_cases hc : 10000 ≤ attempts + 1
    · have : attempts = 9999 := by omega
      subst this
      norm_num
    · rw [if_neg hc, ih (attempts + 1) (pos + 1) (by omega) (by omega)]
      have : pos + 1 + (10000 - (attempts + 1)) = pos + (10000 - attempts) := by omega
      rw [this]

/-- When every attempt yields a full selection (consuming two oracle draws)
whose signature is already registered, the per-item loop counts attempts up
to 10000 and abandons with the state untouched. -/
theorem itemLoop_allDup (info : TraitsInfo) (m : TraitsMapping) (numIns : Nat)
    (rnd : Nat → Nat) (st : GenState)
    (H : ∀ p, ∃ sel,
      selectTraits numIns st.usage rnd (permOfSeed (rnd p) (info.map (·.2))) [] [] (p + 1)
        = (some sel, p + 2) ∧ canonicalSig info sel ∈ st.hashes) :
    ∀ fuel attempts pos, attempts < 10000 → 10000 - attempts ≤ fuel →
      itemLoop info m numIns rnd fuel st attempts pos
        = some (false, st, pos + 2 * (10000 - attempts)) := by
  intro fuel
  induction fuel with
  | zero => intro attempts pos h1 h2; omega
  | succ n ih =>
    intro attempts pos h1 h2
    obtain ⟨sel, hsel, hdup⟩ := H pos
    simp only [itemLoop, hsel]
    rw [if_pos hdup]
    by_cases hc : 10000 ≤ attempts + 1
    · have : attempts = 9999 := by omega
      subst this
      norm_num
    · rw [if_neg hc, ih (attempts + 1) (pos + 2) (by omega) (by omega)]
      have : pos + 2 + 2 * (10000 - (attempts + 1)) = pos + 2 * (10000 - attempts) := by
        omega
      rw [this]

/-- Unfolding helper: an abandoned item makes the outer loop return the
partial collection, the raw ledger and the distribution immediately. -/
theorem genLoop_abandon (info : TraitsInfo) (m : TraitsMapping) (numIns : Nat)
    (rnd : Nat → Nat) (fuel n : Nat) (st : GenState) (pos : Nat) (st2 : GenState) (pos2 : Nat)
    (h : itemLoop info m numIns rnd fuel st 0 pos = some (false, st2, pos2)) :
    genLoop info m numIns rnd fuel (n + 1) st pos
      = some ⟨st2.collection, Sum.inl st2.usage, st2.dist⟩ := by
  simp only [genLoop, h]

/-- Unfolding helper: a committed item continues the outer loop. -/
theorem genLoop_commit (info : TraitsInfo) (m : TraitsMapping) (numIns : Nat)
    (rnd : Nat → Nat) (fuel n : Nat) (st : GenState) (pos : Nat) (st2 : GenState) (pos2 : Nat)
    (h : itemLoop info m numIns rnd fuel st 0 pos = some (true, st2, pos2)) :
    genLoop info m numIns rnd fuel (n + 1) st pos
      = genLoop info m numIns rnd fuel n st2 pos2 := by
  simp only [genLoop, h]

/-- Unfolding helper: after the last item the outer loop shuffles the
collection and formats the statistics. -/
theorem genLoop_done (info : TraitsInfo) (m : TraitsMapping) (numIns : Nat)
    (rnd : Nat → Nat) (fuel : Nat) (st : GenState) (pos : Nat) :
    genLoop info m numIns rnd fuel 0 st pos
      = some ⟨permOfSeed (rnd pos) st.collection, Sum.inr (computeStats st.usage), st.dist⟩ :=
  rfl

/-- Claim C1 counterexample: the dynamic weight of a zero-weight candidate
is 0, not `max(0, targetCount * weight - usage) + 1` (which would be 1), and
for a trait type whose only trait has zero weight, generation does not
select that trait — every attempt dead-ends on the zero weight sum and the
run abandons with an empty collection. -/
theorem zero_weight_floor_counterexample :
    dynamicWeight 5 (initUsage infoZero) tZero = 0 ∧
    max 0 ((5 : Rat) * tZero.weight
        - (usageCount (initUsage infoZero) tZero.type tZero.name : Rat)) + 1 = 1 ∧
    generate_inscriptions infoZero mapZero 1 10000 rndZero 0
      = some ⟨[], Sum.inl (initUsage infoZero), []⟩ := by
  refine ⟨by decide, by decide, ?_⟩
  have H : ∀ p, selectTraits 1 (initState infoZero).usage rndZero
      (permOfSeed (rndZero p) (infoZero.map (·.2))) [] [] (p + 1) = (none, p + 1) :=
    fun _ => rfl
  have h := itemLoop_allFail infoZero mapZero 1 rndZero (initState infoZero) H 10000 0 0
    (by omega) (by omega)
  exact genLoop_abandon infoZero mapZero 1 rndZero 10000 0 (initState infoZero) 0 _ _ h

/-- Claim C1 (amended): the `max(0, targetCount * weight - usage) + 1`
dynamic weight — which is at least 1, keeping the candidate selectable —
applies only to candidates with nonzero configured weight; a zero-weight
candidate gets dynamic weight 0, and a trait group whose candidates all
have zero weight makes the selection dead-end (`NoViableCandidate`) instead
of selecting one of them. -/
theorem dynamic_weight_characterization (numIns : Nat) (u : UsageLedger) :
    (∀ t : TraitInfo, t.weight ≠ 0 →
      dynamicWeight numIns u t
          = max 0 ((numIns : Rat) * t.weight - (usageCount u t.type t.name : Rat)) + 1 ∧
        1 ≤ dynamicWeight numIns u t) ∧
    (∀ t : TraitInfo, t.weight = 0 → dynamicWeight numIns u t = 0) ∧
    (∀ rnd g gs chosen avoid pos, (∀ x ∈ g, x.weight = 0) →
      (selectTraits numIns u rnd (g :: gs) chosen avoid pos).1 = none) := by
  refine ⟨?_, ?_, ?_⟩
  · intro t ht
    rw [dynamicWeight, if_neg ht]
    refine ⟨rfl, ?_⟩
    have h0 : (0 : Rat) ≤ max 0 ((numIns : Rat) * t.weight - (usageCount u t.type t.name : Rat)) :=
      le_max_left 0 _
    linarith
  · intro t ht
    rw [dynamicWeight, if_pos ht]
  · intro rnd g gs chosen avoid pos hz
    have hsum : ∀ a as, availableTraits avoid chosen g = a :: as →
        ((a :: as).map (dynamicWeight numIns u)).sum = 0 := by
      intro a as ha
      apply List.sum_eq_zero
      intro x hx
      obtain ⟨y, hy, hxy⟩ := List.mem_map.mp hx
      have hyg : y ∈ g := by
        have hmem : y ∈ availableTraits avoid chosen g := ha ▸ hy
        exact List.mem_of_mem_filter hmem
      rw [← hxy, dynamicWeight, if_pos (hz y hyg)]
    cases ha : availableTraits avoid chosen g with
    | nil => simp only [selectTraits, ha]
    | cons a as =>
      simp only [selectTraits, ha, hsum a as ha, if_pos]

/-- Witness for the amended claim C1 at a concrete positive-weight trait. -/
theorem dynamic_weight_characterization_witness :
    dynamicWeight 5 (initUsage infoWitness) tWitness
        = max 0 ((5 : Rat) * tWitness.weight
            - (usageCount (initUsage infoWitness) tWitness.type tWitness.name : Rat)) + 1 ∧
      1 ≤ dynamicWeight 5 (initUsage infoWitness) tWitness :=
  (dynamic_weight_characterization 5 (initUsage infoWitness)).1 tWitness (by decide)

/-! Concrete scenario for the defensive re-check: a trait that blacklists
its own number passes the sampler's pairwise checks (the avoid list and the
blacklist intersection only look at previously chosen traits) but fails
`validate_traits`. -/

/-- A trait whose blacklist contains its own number. -/
def tSelf : TraitInfo := ⟨"", 1, "A", "a", 1, [1], []⟩

/-- A companion trait with no constraints. -/
def tOther : TraitInfo := ⟨"", 2, "A", "b", 1, [], []⟩

/-- Catalog of the failed-validation scenario. -/
def infoSelf : TraitsInfo := [("A", [tSelf, tOther])]

/-- Number mapping of the failed-validation scenario. -/
def mapSelf : TraitsMapping := [(1, tSelf), (2, tOther)]

/-- Oracle: the first attempt draws `tSelf`, the second draws `tOther`. -/
def rndSelf : Nat → Nat := fun p => if p = 3 then 1 else 0

/-- The state after the failed attempt (hash registered, nothing committed)
followed by the successful attempt committing `tOther`. -/
def stSelf : GenState :=
  ⟨[[("A", "b")]],
   [("A", [("a", ⟨0, 100⟩), ("b", ⟨1, 100⟩)])],
   [[("A", "b")], [("A", "a")]],
   [(1, 1)]⟩

/-- Claim C3 counterexample: the first attempt selects the self-blacklisting
trait, the defensive `validate_traits` re-check fails, and the loop
continues with the attempt counter still 0 (not incremented) and with the
failed combination's hash already registered; the final SeenHashes of the
committed run still contains the failed attempt's hash. -/
theorem failed_validation_step_counterexample :
    selectTraits 1 (initState infoSelf).usage rndSelf
        (permOfSeed (rndSelf 0) (infoSelf.map (·.2))) [] [] 1 = (some [tSelf], 2) ∧
    validate_traits (sortedSelection infoSelf [tSelf]) mapSelf = false ∧
    itemLoop infoSelf mapSelf 1 rndSelf 5 (initState infoSelf) 0 0
      = itemLoop infoSelf mapSelf 1 rndSelf 4
          { initState infoSelf with hashes := [canonicalSig infoSelf [tSelf]] } 0 2 ∧
    itemLoop infoSelf mapSelf 1 rndSelf 5 (initState infoSelf) 0 0 = some (true, stSelf, 4) ∧
    [("A", "a")] ∈ stSelf.hashes :=
  ⟨by decide, by decide, by decide, by decide, by decide⟩

/-- Claim C3 (amended): when the defensive re-check fails for a
fully-selected candidate with a fresh signature, the loop retries without
incrementing the attempt counter, and the candidate's hash has already been
registered in SeenHashes before validation, so the failed attempt leaves the
hash registered (collection, ledger and distribution unchanged). -/
theorem failed_validation_step (info : TraitsInfo) (m : TraitsMapping)
    (numIns : Nat) (rnd : Nat → Nat) (fuel : Nat) (st : GenState) (attempts pos : Nat)
    (sel : List TraitInfo) (pos2 : Nat)
    (hsel : selectTraits numIns st.usage rnd (permOfSeed (rnd pos) (info.map (·.2))) [] []
      (pos + 1) = (some sel, pos2))
    (hfresh : canonicalSig info sel ∉ st.hashes)
    (hval : validate_traits (sortedSelection info sel) m = false) :
    itemLoop info m numIns rnd (fuel + 1) st attempts pos
      = itemLoop info m numIns rnd fuel
          { st with hashes := canonicalSig info sel :: st.hashes } attempts pos2 := by
  simp only [itemLoop, hsel]
  rw [if_neg hfresh]
  simp only [hval, Bool.false_eq_true, if_false]

/-- Witness for the amended claim C3 at the concrete self-blacklist
scenario. -/
theorem failed_validation_step_witness :
    itemLoop infoSelf mapSelf 1 rndSelf 5 (initState infoSelf) 0 0
      = itemLoop infoSelf mapSelf 1 rndSelf 4
          { initState infoSelf with
              hashes := canonicalSig infoSelf [tSelf] :: (initState infoSelf).hashes } 0 2 :=
  failed_validation_step infoSelf mapSelf 1 rndSelf 4 (initState infoSelf) 0 0 [tSelf] 2
    (by decide) (by decide) (by decide)

/-- Removing an element yields a permutation-compatible decomposition. -/
theorem pickIdx_perm {α : Type} :
    ∀ (l : List α) (i : Nat) (a : α) (r : List α), pickIdx l i = some (a, r) →
      l.Perm (a :: r) := by
  intro l
  induction l with
  | nil => intro i a r h; simp [pickIdx] at h
  | cons x xs ih =>
    intro i a r h
    cases i with
    | zero =>
      simp [pickIdx] at h
      rw [h.1, h.2]
    | succ j =>
      simp only [pickIdx, Option.map_eq_some'] at h
      obtain ⟨⟨b, r'⟩, hb, hval⟩ := h
      cases hval
      exact ((ih j b r' hb).cons x).trans (List.Perm.swap b x r')

/-- Any number of removal rounds yields a permutation of the input. -/
theorem permAux_perm {α : Type} : ∀ (n s : Nat) (l : List α), (permAux n s l).Perm l := by
  intro n
  induction n with
  | zero => intro s l; rfl
  | succ k ih =>
    intro s l
    rw [permAux]
    cases hp : pickIdx l (s % l.length) with
    | none => rfl
    | some p =>
      exact ((ih (s / (l.length + 1)) p.2).cons p.1).trans (pickIdx_perm l _ p.1 p.2 hp).symm

/-- The modelled shuffle returns a permutation of its input. -/
theorem permOfSeed_perm {α : Type} (s : Nat) (l : List α) : (permOfSeed s l).Perm l :=
  permAux_perm l.length s l

/-! Concrete scenario with two committed items followed by an abandoned
item: a single trait type with two traits and target size 3, so once both
combinations are committed every further attempt is a duplicate. -/

/-- First trait of the two-trait catalog. -/
def tX : TraitInfo := ⟨"", 1, "A", "x", 1, [], []⟩

/-- Second trait of the two-trait catalog. -/
def tY : TraitInfo := ⟨"", 2, "A", "y", 1, [], []⟩

/-- The two-trait catalog. -/
def infoXY : TraitsInfo := [("A", [tX, tY])]

/-- Number mapping of the two-trait catalog. -/
def mapXY : TraitsMapping := [(1, tX), (2, tY)]

/-- Oracle: item 1 draws x, item 2 draws y, and the would-be final shuffle
draw (position 20004, reached after the third item's 10000 duplicate
attempts) encodes the transposition. -/
def rndXY : Nat → Nat := fun p => if p = 3 then 1 else if p = 20004 then 1 else 0

/-- State after the first commit. -/
def st1XY : GenState :=
  ⟨[[("A", "x")]],
   [("A", [("x", ⟨1, 100⟩), ("y", ⟨0, 100⟩)])],
   [[("A", "x")]],
   [(1, 1)]⟩

/-- State after the second commit: both combinations registered. -/
def st2XY : GenState :=
  ⟨[[("A", "x")], [("A", "y")]],
   [("A", [("x", ⟨1, 100⟩), ("y", ⟨1, 100⟩)])],
   [[("A", "y")], [("A", "x")]],
   [(1, 2)]⟩

/-- After both combinations are committed, every attempt of the third item
selects one of the two traits (depending on the draw) and consumes exactly
two oracle positions. -/
theorem selectTraits_stallXY (p : Nat) :
    selectTraits 3 st2XY.usage rndXY (permOfSeed (rndXY p) (infoXY.map (·.2))) [] [] (p + 1)
      = (some [([(tX, (3 : Rat)), (tY, 3)].getD (rndXY (p + 1) % 2) (tX, 3)).1], p + 2) := by
  have hperm : permOfSeed (rndXY p) (infoXY.map (·.2)) = [[tX, tY]] := by
    simp [permOfSeed, permAux, pickIdx, Nat.mod_one, infoXY]
  rw [hperm]
  rfl

/-- Every attempt of the third item reproduces a registered signature. -/
theorem dupXY (p : Nat) :
    ∃ sel, selectTraits 3 st2XY.usage rndXY (permOfSeed (rndXY p) (infoXY.map (·.2))) [] []
        (p + 1) = (some sel, p + 2) ∧ canonicalSig infoXY sel ∈ st2XY.hashes := by
  refine ⟨_, selectTraits_stallXY p, ?_⟩
  rcases Nat.mod_two_eq_zero_or_one (rndXY (p + 1)) with h2 | h2 <;> rw [h2] <;> decide

/-- Claim C4 counterexample: with two committed items and an abandoned
third item, the run returns the partial collection in commit order — the
final shuffle is not applied on the early-abandonment path (the shuffle
draw at the halting oracle position would have transposed the two items). -/
theorem early_return_unshuffled_counterexample :
    generate_inscriptions infoXY mapXY 3 10001 rndXY 0
      = some ⟨st2XY.collection, Sum.inl st2XY.usage, st2XY.dist⟩ ∧
    st2XY.collection = [[("A", "x")], [("A", "y")]] ∧
    permOfSeed (rndXY 20004) st2XY.collection = [[("A", "y")], [("A", "x")]] ∧
    st2XY.collection ≠ permOfSeed (rndXY 20004) st2XY.collection := by
  refine ⟨?_, by decide, by decide, by decide⟩
  have h1 : itemLoop infoXY mapXY 3 rndXY 10001 (initState infoXY) 0 0
      = some (true, st1XY, 2) := by decide
  have h2 : itemLoop infoXY mapXY 3 rndXY 10001 st1XY 0 2 = some (true, st2XY, 4) := by decide
  have h3 := itemLoop_allDup infoXY mapXY 3 rndXY st2XY dupXY 10001 0 4 (by omega) (by omega)
  have e1 := genLoop_commit infoXY mapXY 3 rndXY 10001 2 (initState infoXY) 0 st1XY 2 h1
  have e2 := genLoop_commit infoXY mapXY 3 rndXY 10001 1 st1XY 2 st2XY 4 h2
  have e3 := genLoop_abandon infoXY mapXY 3 rndXY 10001 0 st2XY 4 st2XY
    (4 + 2 * (10000 - 0)) h3
  exact e1.trans (e2.trans e3)

/-- Claim C4 (amended): on normal completion the returned collection is the
final shuffle of the committed items — a permutation of them; on early
abandonment the partial collection is returned exactly as committed, the
shuffle being skipped (trivially the identity permutation of the committed
items). -/
theorem final_collection_modes (info : TraitsInfo) (m : TraitsMapping) (numIns : Nat)
    (rnd : Nat → Nat) (fuel : Nat) :
    (∀ st pos, genLoop info m numIns rnd fuel 0 st pos
        = some ⟨permOfSeed (rnd pos) st.collection, Sum.inr (computeStats st.usage), st.dist⟩
      ∧ (permOfSeed (rnd pos) st.collection).Perm st.collection) ∧
    (∀ n st pos st2 pos2,
      itemLoop info m numIns rnd fuel st 0 pos = some (false, st2, pos2) →
      genLoop info m numIns rnd fuel (n + 1) st pos
        = some ⟨st2.collection, Sum.inl st2.usage, st2.dist⟩) :=
  ⟨fun st pos => ⟨rfl, permOfSeed_perm (rnd pos) st.collection⟩,
   fun n st pos st2 pos2 h => genLoop_abandon info m numIns rnd fuel n st pos st2 pos2 h⟩

/-- Witness for the amended claim C4 at the concrete two-trait scenario. -/
theorem final_collection_modes_witness :
    (genLoop infoXY mapXY 3 rndXY 10001 0 st2XY 4
        = some ⟨permOfSeed (rndXY 4) st2XY.collection, Sum.inr (computeStats st2XY.usage),
            st2XY.dist⟩
      ∧ (permOfSeed (rndXY 4) st2XY.collection).Perm st2XY.collection)
    ∧ genLoop infoXY mapXY 3 rndXY 10001 (0 + 1) st2XY 4
        = some ⟨st2XY.collection, Sum.inl st2XY.usage, st2XY.dist⟩ :=
  ⟨(final_collection_modes infoXY mapXY 3 rndXY 10001).1 st2XY 4,
   (final_collection_modes infoXY mapXY 3 rndXY 10001).2 0 st2XY 4 st2XY (4 + 2 * (10000 - 0))
     (itemLoop_allDup infoXY mapXY 3 rndXY st2XY dupXY 10001 0 4 (by omega) (by omega))⟩

/-- Claim C10: the usage component of the returned triple differs in shape
between the two termination modes — an early abandonment returns the raw
usage ledger (`Sum.inl`: per-trait count and echoed rarity input), normal
completion returns the formatted statistics table (`Sum.inr`: count with
percentage of the type total, rarity input, and a used/unused status for
the "none" trait). -/
theorem usage_result_shape (info : TraitsInfo) (m : TraitsMapping) (numIns : Nat)
    (rnd : Nat → Nat) (fuel : Nat) :
    (∀ n st pos st2 pos2,
      itemLoop info m numIns rnd fuel st 0 pos = some (false, st2, pos2) →
      genLoop info m numIns rnd fuel (n + 1) st pos
        = some ⟨st2.collection, Sum.inl st2.usage, st2.dist⟩) ∧
    (∀ st pos, genLoop info m numIns rnd fuel 0 st pos
        = some ⟨permOfSeed (rnd pos) st.collection, Sum.inr (computeStats st.usage),
            st.dist⟩) :=
  ⟨fun n st pos st2 pos2 h => genLoop_abandon info m numIns rnd fuel n st pos st2 pos2 h,
   fun _ _ => rfl⟩

/-- Witness for claim C10 at the concrete two-trait scenario (abandonment
after two commits, and normal completion at the second commit state). -/
theorem usage_result_shape_witness :
    genLoop infoXY mapXY 3 rndXY 10001 (0 + 1) st2XY 4
        = some ⟨st2XY.collection, Sum.inl st2XY.usage, st2XY.dist⟩ ∧
    genLoop infoXY mapXY 3 rndXY 10001 0 st1XY 2
        = some ⟨permOfSeed (rndXY 2) st1XY.collection, Sum.inr (computeStats st1XY.usage),
            st1XY.dist⟩ :=
  ⟨(usage_result_shape infoXY mapXY 3 rndXY 10001).1 0 st2XY 4 st2XY (4 + 2 * (10000 - 0))
      (itemLoop_allDup infoXY mapXY 3 rndXY st2XY dupXY 10001 0 4 (by omega) (by omega)),
   (usage_result_shape infoXY mapXY 3 rndXY 10001).2 st1XY 2⟩

/-- Membership view of an association-list lookup. -/
theorem alGet_mem {κ β : Type} [DecidableEq κ] {l : List (κ × β)} {k : κ} {v : β}
    (h : alGet l k = some v) : (k, v) ∈ l := by
  simp only [alGet] at h
  obtain ⟨p, hp, hmap⟩ := Option.map_eq_some'.mp h
  have h1 := @List.find?_some (κ × β) (fun q => decide (q.1 = k)) p l hp
  have h2 : p.1 = k := by simpa using h1
  have hmem := List.mem_of_find?_eq_some hp
  rw [← h2, ← hmap]
  exact hmem

/-- Success of an optional `mapM` gives the pointwise relation. -/
theorem mapM_option_forall2 {α β : Type} (f : α → Option β) :
    ∀ (l : List α) (l' : List β), l.mapM f = some l' →
      List.Forall₂ (fun a b => f a = some b) l l' := by
  intro l
  induction l with
  | nil =>
    intro l' h
    simp only [List.mapM_nil, pure, Option.some.injEq] at h
    rw [← h]
    exact List.Forall₂.nil
  | cons a rest ih =>
    intro l' h
    rw [List.mapM_cons] at h
    cases hfa : f a with
    | none => rw [hfa] at h; simp at h
    | some b =>
      rw [hfa] at h
      cases hrest : rest.mapM f with
      | none => rw [hrest] at h; simp at h
      | some bs =>
        rw [hrest] at h
        simp at h
        subst h
        exact List.Forall₂.cons hfa (ih bs hrest)

/-- A left member of a pointwise relation has a related right member. -/
theorem forall2_mem_left {α β : Type} {R : α → β → Prop} :
    ∀ {l : List α} {l' : List β}, List.Forall₂ R l l' → ∀ {a}, a ∈ l → ∃ b ∈ l', R a b := by
  intro l l' h
  induction h with
  | nil => intro a ha; cases ha
  | cons hR _ ih =>
    intro a ha
    rcases List.mem_cons.mp ha with rfl | ha2
    · exact ⟨_, List.mem_cons_self _ _, hR⟩
    · obtain ⟨b, hb, hRb⟩ := ih ha2
      exact ⟨b, List.mem_cons_of_mem _ hb, hRb⟩

/-- Whitelist compilation for one trait keeps every field except the
blacklist, and the compiled blacklist holds exactly the original numbers
plus, for every whitelisted trait type, the numbers of that type's catalog
traits outside the whitelisted chunk of that type. -/
theorem compileWhitelistAux_spec (info : TraitsInfo) :
    ∀ (n : Nat) (ws : List TraitInfo) (t t' : TraitInfo), ws.length ≤ n →
      compileWhitelistAux info n ws t = some t' →
      t'.inscription_id = t.inscription_id ∧ t'.number = t.number ∧ t'.type = t.type ∧
      t'.name = t.name ∧ t'.weight = t.weight ∧ t'.whitelist = t.whitelist ∧
      ∀ b, b ∈ t'.blacklist ↔ (b ∈ t.blacklist ∨
        ∃ w ∈ ws, ∃ v, v ∈ (alGet info w.type).getD [] ∧ v.number = b ∧
          v ∉ ws.filter (fun x => decide (x.type = w.type))) := by
  intro n
  induction n with
  | zero =>
    intro ws t t' hlen h
    have hws : ws = [] := List.length_eq_zero.mp (Nat.le_zero.mp hlen)
    subst hws
    simp only [compileWhitelistAux] at h
    cases h
    simp
  | succ k ih =>
    intro ws t t' hlen h
    cases ws with
    | nil =>
      simp only [compileWhitelistAux] at h
      cases h
      simp
    | cons w rest =>
      simp only [compileWhitelistAux] at h
      by_cases hty : w.type = t.type
      · rw [if_pos hty] at h; cases h
      rw [if_neg hty] at h
      have hw_chunk : w ∈ (w :: rest).filter (fun x => decide (x.type = w.type)) :=
        List.mem_filter.mpr ⟨List.mem_cons_self _ _, by simp⟩
      have hlt : ((w :: rest).filter (fun x => decide (x ∉ (w :: rest).filter
          (fun x => decide (x.type = w.type))))).length < (w :: rest).length := by
        rw [List.length_filter_lt_length_iff_exists]
        exact ⟨w, List.mem_cons_self _ _, by simp [hw_chunk]⟩
      have hlen2 : rest.length + 1 ≤ k + 1 := by simpa using hlen
      have hle : ((w :: rest).filter (fun x => decide (x ∉ (w :: rest).filter
          (fun x => decide (x.type = w.type))))).length ≤ k := by
        simp only [List.length_cons] at hlt
        omega
      obtain ⟨hid, hnum, htyp, hname, hwt, hwl, hbl⟩ := ih _ _ _ hle h
      refine ⟨hid, hnum, htyp, hname, hwt, hwl, ?_⟩
      intro b
      rw [hbl b]
      simp only [List.mem_append]
      constructor
      · rintro ((hb | hb) | hP)
        · exact Or.inl hb
        · obtain ⟨v, hvf, hvb⟩ := List.mem_map.mp hb
          obtain ⟨hvg, hvnc⟩ := List.mem_filter.mp hvf
          refine Or.inr ⟨w, List.mem_cons_self _ _, v, hvg, hvb, ?_⟩
          exact of_decide_eq_true hvnc
        · obtain ⟨w', hw', v, hv, hvb, hvnot⟩ := hP
          obtain ⟨hw'mem, hw'dec⟩ := List.mem_filter.mp hw'
          have hw'nc : w' ∉ (w :: rest).filter (fun x => decide (x.type = w.type)) :=
            of_decide_eq_true hw'dec
          have hw'ty : ¬ w'.type = w.type := fun he =>
            hw'nc (List.mem_filter.mpr ⟨hw'mem, by simp [he]⟩)
          refine Or.inr ⟨w', hw'mem, v, hv, hvb, ?_⟩
          intro hvin
          obtain ⟨hvmem, hvdec⟩ := List.mem_filter.mp hvin
          have hvty : v.type = w'.type := by simpa using hvdec
          have hvnc : v ∉ (w :: rest).filter (fun x => decide (x.type = w.type)) := by
            intro hvc
            have : v.type = w.type := by simpa using (List.mem_filter.mp hvc).2
            exact hw'ty (hvty ▸ this)
          exact hvnot (List.mem_filter.mpr ⟨List.mem_filter.mpr ⟨hvmem, decide_eq_true hvnc⟩,
            by simp [hvty]⟩)
      · rintro (hb | ⟨w', hw', v, hv, hvb, hvnot⟩)
        · exact Or.inl (Or.inl hb)
        by_cases hty' : w'.type = w.type
        · refine Or.inl (Or.inr ?_)
          rw [hty'] at hv hvnot
          exact List.mem_map.mpr ⟨v, List.mem_filter.mpr ⟨hv, decide_eq_true hvnot⟩, hvb⟩
        · have hw'nc : w' ∉ (w :: rest).filter (fun x => decide (x.type = w.type)) := by
            intro hc
            exact hty' (by simpa using (List.mem_filter.mp hc).2)
          refine Or.inr ⟨w', List.mem_filter.mpr ⟨hw', decide_eq_true hw'nc⟩, v, hv, hvb, ?_⟩
          intro hvin
          obtain ⟨hvmem2, hvdec2⟩ := List.mem_filter.mp hvin
          have hvmem3 : v ∈ w :: rest := (List.mem_filter.mp hvmem2).1
          exact hvnot (List.mem_filter.mpr ⟨hvmem3, hvdec2⟩)

/-- The characterisation of one trait's whitelist compilation, stated for
the wrapper. -/
theorem compileWhitelist_spec (info : TraitsInfo) (ws : List TraitInfo) (t t' : TraitInfo)
    (h : compileWhitelist info ws t = some t') :
    t'.inscription_id = t.inscription_id ∧ t'.number = t.number ∧ t'.type = t.type ∧
    t'.name = t.name ∧ t'.weight = t.weight ∧ t'.whitelist = t.whitelist ∧
    ∀ b, b ∈ t'.blacklist ↔ (b ∈ t.blacklist ∨
      ∃ w ∈ ws, ∃ v, v ∈ (alGet info w.type).getD [] ∧ v.number = b ∧
        v ∉ ws.filter (fun x => decide (x.type = w.type))) :=
  compileWhitelistAux_spec info ws.length ws t t' (Nat.le_refl _) h

/-- Success of catalog-wide whitelist compilation relates every input group
pointwise to its compiled group. -/
theorem convert_spec (info info2 : TraitsInfo) (m : TraitsMapping)
    (h : convert_whitelist_to_blacklist info m = some info2) :
    List.Forall₂ (fun p p2 => p2.1 = p.1 ∧
      List.Forall₂ (fun t t' => compileWhitelist info (resolveWhitelist m t) t = some t')
        p.2 p2.2) info info2 := by
  have h2 := mapM_option_forall2 _ info info2 h
  refine h2.imp ?_
  intro p p2 hp
  obtain ⟨g, hg, hmap⟩ := Option.map_eq_some'.mp hp
  constructor
  · rw [← hmap]
  · have hf := mapM_option_forall2 _ p.2 g hg
    rw [← hmap]
    exact hf

/-! Concrete catalog for whitelist compilation: trait A in type T1
whitelists traits B and C of type T2, which also contains D. -/

/-- Trait A, whitelisting B (number 2) and C (number 3). -/
def wA : TraitInfo := ⟨"", 1, "T1", "A", 1, [], [2, 3]⟩

/-- Trait B of type T2. -/
def wB : TraitInfo := ⟨"", 2, "T2", "B", 1, [], []⟩

/-- Trait C of type T2. -/
def wC : TraitInfo := ⟨"", 3, "T2", "C", 1, [], []⟩

/-- Trait D of type T2 (not whitelisted by A). -/
def wD : TraitInfo := ⟨"", 4, "T2", "D", 1, [], []⟩

/-- Catalog of the whitelist example. -/
def infoW : TraitsInfo := [("T1", [wA]), ("T2", [wB, wC, wD])]

/-- Number mapping of the whitelist example. -/
def mapW : TraitsMapping := [(1, wA), (2, wB), (3, wC), (4, wD)]

/-- The compiled catalog of the whitelist example: A's blacklist gains D's
number only. -/
def infoW2 : TraitsInfo :=
  [("T1", [⟨"", 1, "T1", "A", 1, [4], [2, 3]⟩]), ("T2", [wB, wC, wD])]

/-- Claim C6: after constraint compilation, a trait whose whitelist targets
a foreign trait type has in its blacklist the number of every trait of that
type outside the whitelisted subset, and the number of none of the
whitelisted traits.  Hypotheses: the number mapping is keyed by the trait
numbers and agrees with the catalog (the loader's aliasing invariant),
group members carry their group's type, and the trait's own whitelist and
blacklist are disjoint (enforced by the loader before compilation). -/
theorem whitelist_compiles_to_complement (info info2 : TraitsInfo) (m : TraitsMapping)
    (hkey : ∀ q ∈ m, (q : Nat × TraitInfo).2.number = q.1)
    (hres : ∀ p ∈ info, ∀ x ∈ (p : String × List TraitInfo).2, alGet m x.number = some x)
    (htyf : ∀ p ∈ info, ∀ x ∈ (p : String × List TraitInfo).2, x.type = p.1)
    (hconv : convert_whitelist_to_blacklist info m = some info2)
    (p : String × List TraitInfo) (hp : p ∈ info) (t : TraitInfo) (ht : t ∈ p.2)
    (hdisj : ∀ x ∈ t.whitelist, x ∉ t.blacklist) :
    ∃ t', compileWhitelist info (resolveWhitelist m t) t = some t' ∧
      (∃ p2 ∈ info2, p2.1 = p.1 ∧ t' ∈ p2.2) ∧
      ∀ ty g, ty ≠ t.type → alGet info ty = some g →
        (∃ x ∈ t.whitelist, ∃ v, alGet m x = some v ∧ v.type = ty) →
        ∀ u ∈ g, (u.number ∉ t.whitelist → u.number ∈ t'.blacklist) ∧
                 (u.number ∈ t.whitelist → u.number ∉ t'.blacklist) := by
  obtain ⟨p2, hp2mem, hkey2, hinner⟩ := forall2_mem_left (convert_spec info info2 m hconv) hp
  obtain ⟨t', ht'mem, hcomp⟩ := forall2_mem_left hinner ht
  refine ⟨t', hcomp, ⟨p2, hp2mem, hkey2, ht'mem⟩, ?_⟩
  obtain ⟨-, -, -, -, -, -, hbl⟩ := compileWhitelist_spec info (resolveWhitelist m t) t t' hcomp
  have hmemres : ∀ v, v ∈ resolveWhitelist m t ↔ ∃ x ∈ t.whitelist, alGet m x = some v := by
    intro v
    simp [resolveWhitelist, List.mem_filterMap]
  have hnumres : ∀ v ∈ resolveWhitelist m t, v.number ∈ t.whitelist := by
    intro v hv
    obtain ⟨x, hx, hxv⟩ := (hmemres v).mp hv
    rw [hkey (x, v) (alGet_mem hxv)]
    exact hx
  intro ty g hnety hg htarget u hu
  have hpg : (ty, g) ∈ info := alGet_mem hg
  have hures : alGet m u.number = some u := hres (ty, g) hpg u hu
  have huty : u.type = ty := htyf (ty, g) hpg u hu
  constructor
  · intro hnotwl
    obtain ⟨x, hx, v0, hv0, hv0ty⟩ := htarget
    have hv0mem : v0 ∈ resolveWhitelist m t := (hmemres v0).mpr ⟨x, hx, hv0⟩
    refine (hbl u.number).mpr (Or.inr ⟨v0, hv0mem, u, ?_, rfl, ?_⟩)
    · rw [hv0ty, hg]
      exact hu
    · intro hufil
      exact hnotwl (hnumres u (List.mem_filter.mp hufil).1)
  · intro hwl hin
    rcases (hbl u.number).mp hin with hold | ⟨w', hw', v, hv, hvb, hvnot⟩
    · exact hdisj u.number hwl hold
    · cases hga : alGet info w'.type with
      | none => rw [hga] at hv; simp at hv
      | some g2 =>
        rw [hga] at hv
        simp only [Option.getD_some] at hv
        have hpg2 : (w'.type, g2) ∈ info := alGet_mem hga
        have hvres : alGet m v.number = some v := hres (w'.type, g2) hpg2 v hv
        have hvty2 : v.type = w'.type := htyf (w'.type, g2) hpg2 v hv
        have hveq : v = u := by
          rw [hvb, hures] at hvres
          exact ((Option.some.injEq _ _).mp hvres).symm
        subst hveq
        have humem : v ∈ resolveWhitelist m t := (hmemres v).mpr ⟨v.number, hwl, hures⟩
        exact hvnot (List.mem_filter.mpr ⟨humem, decide_eq_true hvty2⟩)

/-- Witness for claim C6 at the concrete whitelist example. -/
theorem whitelist_compiles_to_complement_witness :
    ∃ t', compileWhitelist infoW (resolveWhitelist mapW wA) wA = some t' ∧
      (∃ p2 ∈ infoW2, p2.1 = ("T1", [wA]).1 ∧ t' ∈ p2.2) ∧
      ∀ ty g, ty ≠ wA.type → alGet infoW ty = some g →
        (∃ x ∈ wA.whitelist, ∃ v, alGet mapW x = some v ∧ v.type = ty) →
        ∀ u ∈ g, (u.number ∉ wA.whitelist → u.number ∈ t'.blacklist) ∧
                 (u.number ∈ wA.whitelist → u.number ∉ t'.blacklist) :=
  whitelist_compiles_to_complement infoW infoW2 mapW (by decide) (by decide) (by decide)
    (by decide) ("T1", [wA]) (by decide) wA (by decide) (by decide)

/-- Updating a key makes it present with the updated value. -/
theorem alGet_alUpdate_self {κ β : Type} [DecidableEq κ] (l : List (κ × β)) (k : κ)
    (f : Option β → β) : alGet (alUpdate l k f) k = some (f (alGet l k)) := by
  induction l with
  | nil => simp [alUpdate, alGet]
  | cons p rest ih =>
    obtain ⟨k', v⟩ := p
    by_cases h : k' = k
    · subst h
      simp [alUpdate, alGet]
    · simp only [alUpdate, if_neg h]
      have hfind : decide ((k', v).1 = k) = false := by simp [h]
      simp only [alGet, List.find?_cons, hfind] at ih ⊢
      exact ih

/-- Updating one key leaves the other keys' lookups unchanged. -/
theorem alGet_alUpdate_ne {κ β : Type} [DecidableEq κ] (l : List (κ × β)) (k k' : κ)
    (f : Option β → β) (h : k' ≠ k) : alGet (alUpdate l k f) k' = alGet l k' := by
  induction l with
  | nil => simp [alUpdate, alGet, Ne.symm h]
  | cons p rest ih =>
    obtain ⟨k0, v⟩ := p
    by_cases h0 : k0 = k
    · subst h0
      have h1 : decide ((k0, f (some v)).1 = k') = false := by simp [Ne.symm h]
      have h2 : decide ((k0, v).1 = k') = false := by simp [Ne.symm h]
      simp [alUpdate, alGet, List.find?_cons, h1, h2]
    · simp only [alUpdate, if_neg h0]
      by_cases h1 : k0 = k'
      · subst h1
        simp [alGet, List.find?_cons]
      · have h2 : decide ((k0, v).1 = k') = false := by simp [h1]
        simp only [alGet, List.find?_cons, h2] at ih ⊢
        exact ih

/-- The keys after an update: unchanged when present, appended when new. -/
theorem alUpdate_keys {κ β : Type} [DecidableEq κ] (l : List (κ × β)) (k : κ)
    (f : Option β → β) :
    (alUpdate l k f).map Prod.fst
      = if k ∈ l.map Prod.fst then l.map Prod.fst else l.map Prod.fst ++ [k] := by
  induction l with
  | nil => simp [alUpdate]
  | cons p rest ih =>
    obtain ⟨k', v⟩ := p
    by_cases h : k' = k
    · subst h
      simp [alUpdate]
    · simp only [alUpdate, if_neg h, List.map_cons, ih]
      by_cases h2 : k ∈ rest.map Prod.fst
      · rw [if_pos h2, if_pos (List.mem_cons_of_mem _ h2)]
      · rw [if_neg h2, if_neg ?_]
        · rfl
        · intro hc
          rcases List.mem_cons.mp hc with he | hm
          · exact h he.symm
          · exact h2 hm

/-- An update preserves distinctness of the keys. -/
theorem alUpdate_keys_nodup {κ β : Type} [DecidableEq κ] (l : List (κ × β)) (k : κ)
    (f : Option β → β) (h : (l.map Prod.fst).Nodup) :
    ((alUpdate l k f).map Prod.fst).Nodup := by
  rw [alUpdate_keys]
  by_cases h2 : k ∈ l.map Prod.fst
  · rw [if_pos h2]; exact h
  · rw [if_neg h2]
    simp [List.nodup_append, h, h2]

/-- With distinct keys, membership determines the lookup. -/
theorem alGet_of_mem_nodup {κ β : Type} [DecidableEq κ] :
    ∀ {l : List (κ × β)} {p : κ × β}, (l.map Prod.fst).Nodup → p ∈ l →
      alGet l p.1 = some p.2 := by
  intro l
  induction l with
  | nil => intro p _ hp; cases hp
  | cons q rest ih =>
    intro p hnd hp
    rcases List.mem_cons.mp hp with rfl | hp2
    · have h1 : decide (p.1 = p.1) = true := by simp
      simp [alGet, List.find?_cons, h1]
    · have hq : q.1 ≠ p.1 := by
        intro he
        have hpk : p.1 ∈ rest.map Prod.fst := List.mem_map.mpr ⟨p, hp2, rfl⟩
        rw [List.map_cons] at hnd
        exact (List.nodup_cons.mp hnd).1 (he ▸ hpk)
      have h1 : decide (q.1 = p.1) = false := by simp [hq]
      have := ih (List.nodup_cons.mp (by rw [List.map_cons] at hnd; exact hnd)).2 hp2
      simp only [alGet, List.find?_cons, h1] at this ⊢
      exact this

/-- Inserting a fresh name appends the trait at the end of the group. -/
theorem insertByName_fresh :
    ∀ (g : List TraitInfo) (t : TraitInfo), (∀ u ∈ g, u.name ≠ t.name) →
      insertByName g t = g ++ [t] := by
  intro g
  induction g with
  | nil => intro t _; rfl
  | cons u rest ih =>
    intro t h
    rw [insertByName, if_neg (h u (List.mem_cons_self _ _))]
    rw [ih t (fun x hx => h x (List.mem_cons_of_mem _ hx))]
    rfl

/-- A right member of a pointwise relation has a related left member. -/
theorem forall2_mem_right {α β : Type} {R : α → β → Prop} :
    ∀ {l : List α} {l' : List β}, List.Forall₂ R l l' → ∀ {b}, b ∈ l' → ∃ a ∈ l, R a b := by
  intro l l' h
  induction h with
  | nil => intro b hb; cases hb
  | cons hR _ ih =>
    intro b hb
    rcases List.mem_cons.mp hb with rfl | hb2
    · exact ⟨_, List.mem_cons_self _ _, hR⟩
    · obtain ⟨a, ha, hRa⟩ := ih hb2
      exact ⟨a, List.mem_cons_of_mem _ ha, hRa⟩

/-- Pointwise equal weights give equal weight lists. -/
theorem forall2_weight_map {l l' : List TraitInfo}
    (h : List.Forall₂ (fun t t' => t'.weight = t.weight) l l') :
    l'.map (fun t => t.weight) = l.map (fun t => t.weight) := by
  induction h with
  | nil => rfl
  | cons hR _ ih => simp [ih, hR]

/-- Keys of the row-by-row built catalog stay distinct. -/
theorem build_keys_nodup :
    ∀ (rows : List SheetRow) (acc : TraitsInfo), (acc.map Prod.fst).Nodup →
      (((rows.foldl (fun i r => insertTrait i (rowTrait r)) acc)).map Prod.fst).Nodup := by
  intro rows
  induction rows with
  | nil => intro acc h; exact h
  | cons r rest ih =>
    intro acc h
    exact ih _ (alUpdate_keys_nodup acc (rowTrait r).type _ h)

/-- Row-by-row invariant: per trait type, the sum of the raw weights in the
built catalog equals the accumulated cumulative weight, provided the rows'
(type, name) pairs are distinct (so the dictionary insertion never
overwrites). -/
theorem build_cum_invariant :
    ∀ (rows : List SheetRow) (acc : TraitsInfo) (cw : List (String × Rat)),
      (∀ ty, (((alGet acc ty).getD []).map (fun t => t.weight)).sum = (alGet cw ty).getD 0) →
      (∀ r ∈ rows, ∀ u ∈ (alGet acc r.trait_type).getD [], u.name ≠ r.trait_name) →
      (rows.map (fun r => (r.trait_type, r.trait_name))).Nodup →
      ∀ ty, (((alGet (rows.foldl (fun i r => insertTrait i (rowTrait r)) acc) ty).getD
          []).map (fun t => t.weight)).sum
        = (alGet (rows.foldl addCumulative cw) ty).getD 0 := by
  intro rows
  induction rows with
  | nil => intro acc cw hinv _ _ ty; exact hinv ty
  | cons r rest ih =>
    intro acc cw hinv hfresh hnd ty
    simp only [List.foldl_cons]
    have hgroup : alGet (insertTrait acc (rowTrait r)) r.trait_type
        = some (((alGet acc r.trait_type).getD []) ++ [rowTrait r]) := by
      have hself := alGet_alUpdate_self acc r.trait_type
        (fun o => insertByName (o.getD []) (rowTrait r))
      rw [show insertTrait acc (rowTrait r) = alUpdate acc r.trait_type
          (fun o => insertByName (o.getD []) (rowTrait r)) from rfl]
      rw [hself, insertByName_fresh _ _ ?_]
      intro u hu
      exact hfresh r (List.mem_cons_self _ _) u hu
    have hnd' := List.nodup_cons.mp (by rw [List.map_cons] at hnd; exact hnd)
    apply ih
    · intro ty2
      by_cases hty : ty2 = r.trait_type
      · subst hty
        rw [hgroup]
        have hcum := alGet_alUpdate_self cw r.trait_type (fun o => o.getD 0 + rowWeight r)
        rw [addCumulative, hcum]
        simp only [Option.getD_some, List.map_append, List.sum_append]
        rw [hinv r.trait_type]
        simp [rowTrait]
      · rw [show insertTrait acc (rowTrait r) = alUpdate acc (rowTrait r).type
            (fun o => insertByName (o.getD []) (rowTrait r)) from rfl]
        rw [alGet_alUpdate_ne _ _ _ _ (by simpa [rowTrait] using hty)]
        rw [addCumulative, alGet_alUpdate_ne _ _ _ _ hty]
        exact hinv ty2
    · intro r2 hr2 u hu
      by_cases hty : r2.trait_type = r.trait_type
      · rw [hty, hgroup] at hu
        simp only [Option.getD_some, List.mem_append, List.mem_singleton] at hu
        rcases hu with hu | rfl
        · exact hfresh r2 (List.mem_cons_of_mem _ hr2) u (by rw [hty]; exact hu)
        · intro he
          have hpair : (r.trait_type, r.trait_name) ∈ rest.map
              (fun r => (r.trait_type, r.trait_name)) := by
            refine List.mem_map.mpr ⟨r2, hr2, ?_⟩
            rw [hty, show (rowTrait r).name = r.trait_name from rfl] at *
            rw [← he]
          exact hnd'.1 hpair
      · rw [show insertTrait acc (rowTrait r) = alUpdate acc (rowTrait r).type
            (fun o => insertByName (o.getD []) (rowTrait r)) from rfl,
          alGet_alUpdate_ne _ _ _ _ (by simpa [rowTrait] using hty)] at hu
        exact hfresh r2 (List.mem_cons_of_mem _ hr2) u hu
    · exact hnd'.2

/-- Two rows with the same trait type and the same trait name (the second
overwrites the first in the catalog dictionary, but both weights enter the
cumulative total). -/
def rowTX1 : SheetRow := ⟨1, "T", "x", none, [], [], ""⟩

/-- Duplicate-name companion row of `rowTX1`. -/
def rowTX2 : SheetRow := ⟨2, "T", "x", none, [], [], ""⟩

/-- Claim C8 counterexample: with two rows of the same trait type carrying
the same trait name, `load_traits_info` completes but the normalized
weights of the type sum to 1/2, not 1 — the overwritten row's weight still
inflates the cumulative divisor. -/
theorem normalized_weight_sum_counterexample :
    load_traits_info [rowTX1, rowTX2]
      = some [("T", [⟨"", 2, "T", "x", 1 / 2, [], []⟩])] ∧
    (([(⟨"", 2, "T", "x", 1 / 2, [], []⟩ : TraitInfo)]).map (fun t => t.weight)).sum
      = 1 / 2 ∧ ((1 : Rat) / 2 ≠ 1) :=
  ⟨by decide, by decide, by decide⟩

/-- Claim C8 (amended): after `load_traits_info` completes on rows whose
(type, name) pairs are pairwise distinct and whose accumulated raw weight
is positive for every loaded trait type, the normalized weights of each
TraitType's traits sum to exactly 1 (each weight having been divided by the
type's raw total). -/
theorem normalized_weight_sum (rows : List SheetRow) (info : TraitsInfo)
    (hload : load_traits_info rows = some info)
    (hnd : (rows.map (fun r => (r.trait_type, r.trait_name))).Nodup)
    (hpos : ∀ p ∈ info, 0 < (alGet (rows.foldl addCumulative [])
      (p : String × List TraitInfo).1).getD 0) :
    ∀ p ∈ info, (((p : String × List TraitInfo).2.map (fun t => t.weight)).sum : Rat) = 1 := by
  intro p hp
  have hppos := hpos p hp
  rw [load_traits_info] at hload
  by_cases hok : rows.all rowOk
  swap
  · rw [if_neg hok] at hload; cases hload
  rw [if_pos hok] at hload
  obtain ⟨info2, hconv, hnorm⟩ := Option.map_eq_some'.mp hload
  rw [← hnorm] at hp
  obtain ⟨q, hq, hpq⟩ := List.mem_map.mp hp
  obtain ⟨p1, hp1, hkeyeq, hf2⟩ := forall2_mem_right (convert_spec _ _ _ hconv) hq
  have hw : q.2.map (fun t => t.weight) = p1.2.map (fun t => t.weight) :=
    forall2_weight_map (hf2.imp (fun t t' hc =>
      (compileWhitelist_spec _ _ _ _ hc).2.2.2.2.1))
  have hnd1 : ((rows.foldl (fun i r => insertTrait i (rowTrait r)) []).map Prod.fst).Nodup :=
    build_keys_nodup rows [] (by simp)
  have hget1 : alGet (rows.foldl (fun i r => insertTrait i (rowTrait r)) []) p1.1
      = some p1.2 := alGet_of_mem_nodup hnd1 hp1
  have hsum := build_cum_invariant rows [] []
    (by intro ty; simp [alGet]) (by intro r _ u hu; simp [alGet] at hu) hnd p1.1
  rw [hget1] at hsum
  simp only [Option.getD_some] at hsum
  have hp1key : p.1 = p1.1 := by rw [← hpq, hkeyeq]
  rw [← hpq]
  show ((q.2.map (fun t =>
      ({ t with weight := t.weight / ((alGet (rows.foldl addCumulative []) q.1).getD 0) }
        : TraitInfo))).map (fun t => t.weight)).sum = 1
  rw [List.map_map]
  have hcomp : ((fun t : TraitInfo => t.weight) ∘ (fun t : TraitInfo =>
      ({ t with weight := t.weight / ((alGet (rows.foldl addCumulative []) q.1).getD 0) }
        : TraitInfo)))
      = fun t : TraitInfo => t.weight * ((alGet (rows.foldl addCumulative []) q.1).getD 0)⁻¹ := by
    funext t
    simp [div_eq_mul_inv]
  rw [hcomp, List.sum_map_mul_right, hw, hsum, hkeyeq]
  have hne : (alGet (rows.foldl addCumulative []) p1.1).getD 0 ≠ 0 := by
    rw [hp1key] at hppos
    exact ne_of_gt hppos
  exact mul_inv_cancel₀ hne

/-- Witness rows for the amended claim C8 (distinct names, rarities 1 and 3). -/
def rowT1 : SheetRow := ⟨1, "T", "x", some 1, [], [], ""⟩

/-- Second witness row. -/
def rowT2 : SheetRow := ⟨2, "T", "y", some 3, [], [], ""⟩

/-- The loaded witness catalog (weights normalized to 1/4 and 3/4). -/
def infoT : TraitsInfo :=
  [("T", [⟨"", 1, "T", "x", 1 / 4, [], []⟩, ⟨"", 2, "T", "y", 3 / 4, [], []⟩])]

/-- Witness for the amended claim C8 at the concrete two-row catalog. -/
theorem normalized_weight_sum_witness :
    ((([(⟨"", 1, "T", "x", 1 / 4, [], []⟩ : TraitInfo),
        ⟨"", 2, "T", "y", 3 / 4, [], []⟩]).map (fun t => t.weight)).sum : Rat) = 1 :=
  normalized_weight_sum [rowT1, rowT2] infoT (by decide) (by decide) (by decide)
    ("T", [⟨"", 1, "T", "x", 1 / 4, [], []⟩, ⟨"", 2, "T", "y", 3 / 4, [], []⟩]) (by decide)

/-- A successful selection chooses exactly one trait per trait group. -/
theorem selectTraits_length (numIns : Nat) (u : UsageLedger) (rnd : Nat → Nat) :
    ∀ (gs : List (List TraitInfo)) (chosen : List TraitInfo) (avoid : List Nat) (pos : Nat)
      (sel : List TraitInfo) (pos2 : Nat),
      selectTraits numIns u rnd gs chosen avoid pos = (some sel, pos2) →
      sel.length = chosen.length + gs.length := by
  intro gs
  induction gs with
  | nil =>
    intro chosen avoid pos sel pos2 h
    simp only [selectTraits, Prod.mk.injEq, Option.some.injEq] at h
    rw [← h.1]
    simp
  | cons g gs ih =>
    intro chosen avoid pos sel pos2 h
    cases ha : availableTraits avoid chosen g with
    | nil =>
      simp only [selectTraits, ha] at h
      simp at h
    | cons a as =>
      simp only [selectTraits, ha] at h
      by_cases hsum : ((a :: as).map (dynamicWeight numIns u)).sum = 0
      · rw [if_pos hsum] at h
        simp at h
      · rw [if_neg hsum] at h
        cases hch : chooseWeighted (rnd pos)
            ((a :: as).zip ((a :: as).map (dynamicWeight numIns u))) with
        | none => simp only [hch] at h; simp at h
        | some t =>
          simp only [hch] at h
          have hlen := ih _ _ _ _ _ h
          simp only [List.length_append, List.length_cons, List.length_nil] at hlen ⊢
          omega

/-- The trait-count distribution is empty or a single entry keyed by the
number of trait groups. -/
def DistOk (info : TraitsInfo) (d : List (Nat × Nat)) : Prop :=
  d = [] ∨ ∃ c, d = [(info.length, c)]

/-- Bumping the catalog-size key preserves the distribution shape. -/
theorem bumpDist_distOk (info : TraitsInfo) (d : List (Nat × Nat)) (h : DistOk info d) :
    DistOk info (bumpDist d info.length) := by
  rcases h with rfl | ⟨c, rfl⟩
  · exact Or.inr ⟨1, rfl⟩
  · exact Or.inr ⟨c + 1, by simp [bumpDist, alUpdate]⟩

/-- One item of the generator leaves the distribution's shape intact: every
committed selection has exactly one trait per trait group of the catalog. -/
theorem itemLoop_dist (info : TraitsInfo) (m : TraitsMapping) (numIns : Nat)
    (rnd : Nat → Nat) :
    ∀ (fuel : Nat) (st : GenState) (attempts pos : Nat) (flag : Bool) (st2 : GenState)
      (pos2 : Nat),
      itemLoop info m numIns rnd fuel st attempts pos = some (flag, st2, pos2) →
      DistOk info st.dist → DistOk info st2.dist := by
  intro fuel
  induction fuel with
  | zero => intro st attempts pos flag st2 pos2 h; simp [itemLoop] at h
  | succ k ih =>
    intro st attempts pos flag st2 pos2 h hok
    rcases hsel : selectTraits numIns st.usage rnd (permOfSeed (rnd pos) (info.map (·.2)))
        [] [] (pos + 1) with ⟨selOpt, pos3⟩
    cases selOpt with
    | none =>
      simp only [itemLoop, hsel] at h
      by_cases hc : 10000 ≤ attempts + 1
      · rw [if_pos hc] at h
        cases h
        exact hok
      · rw [if_neg hc] at h
        exact ih _ _ _ _ _ _ h hok
    | some sel =>
      simp only [itemLoop, hsel] at h
      by_cases hdup : canonicalSig info sel ∈ st.hashes
      · rw [if_pos hdup] at h
        by_cases hc : 10000 ≤ attempts + 1
        · rw [if_pos hc] at h
          cases h
          exact hok
        · rw [if_neg hc] at h
          exact ih _ _ _ _ _ _ h hok
      · rw [if_neg hdup] at h
        by_cases hval : validate_traits (sortedSelection info sel) m = true
        · rw [if_pos hval] at h
          cases h
          have hlen : sel.length = info.length := by
            have h1 := selectTraits_length numIns st.usage rnd _ _ _ _ _ _ hsel
            have h2 : (permOfSeed (rnd pos) (info.map (·.2))).length
                = (info.map (·.2)).length :=
              (permOfSeed_perm (rnd pos) (info.map (·.2))).length_eq
            simp only [List.length_map] at h2
            simpa [h2] using h1
          have hsl : (sortedSelection info sel).length = info.length := by
            rw [sortedSelection, List.length_insertionSort, hlen]
          show DistOk info (bumpDist st.dist (sortedSelection info sel).length)
          rw [hsl]
          exact bumpDist_distOk info st.dist hok
        · rw [if_neg hval] at h
          exact ih _ _ _ _ _ _ h hok

/-- Claim C9: every committed item selects exactly one trait per TraitType
("none" included), so the trait-count distribution of any returned
collection is either empty or a single entry keyed by the number of
TraitTypes of the catalog. -/
theorem trait_count_per_item (info : TraitsInfo) (m : TraitsMapping)
    (numIns fuel : Nat) (rnd : Nat → Nat) (pos : Nat) (res : GenResult)
    (h : generate_inscriptions info m numIns fuel rnd pos = some res) :
    res.dist = [] ∨ ∃ c, res.dist = [(info.length, c)] := by
  suffices H : ∀ (n : Nat) (st : GenState) (pos2 : Nat), DistOk info st.dist →
      ∀ r, genLoop info m numIns rnd fuel n st pos2 = some r → DistOk info r.dist by
    exact H numIns (initState info) pos (Or.inl rfl) res h
  intro n
  induction n with
  | zero =>
    intro st pos2 hok r hr
    simp only [genLoop, Option.some.injEq] at hr
    rw [← hr]
    exact hok
  | succ k ih =>
    intro st pos2 hok r hr
    simp only [genLoop] at hr
    cases hitem : itemLoop info m numIns rnd fuel st 0 pos2 with
    | none => rw [hitem] at hr; cases hr
    | some trip =>
      rw [hitem] at hr
      obtain ⟨flag, st2, pos3⟩ := trip
      have hok2 := itemLoop_dist info m numIns rnd fuel st 0 pos2 flag st2 pos3 hitem hok
      cases flag
      · simp only [Option.some.injEq] at hr
        rw [← hr]
        exact hok2
      · exact ih st2 pos3 hok2 r hr

/-- The result of the one-item witness run. -/
def resWitness : GenResult :=
  ⟨[[("A", "x")]], Sum.inr [("A", [("x", ⟨1, 100, 100, none⟩)])], [(1, 1)]⟩

/-- Witness for claim C9 at the concrete one-trait catalog. -/
theorem trait_count_per_item_witness :
    resWitness.dist = [] ∨ ∃ c, resWitness.dist = [(infoWitness.length, c)] :=
  trait_count_per_item infoWitness mapWitness 1 3 rndZero 0 resWitness (by decide)

/-- A default inside the list keeps `getD` inside the list. -/
theorem getD_mem {α : Type} (l : List α) (i : Nat) (d : α) (hd : d ∈ l) : l.getD i d ∈ l := by
  by_cases hi : i < l.length
  · rw [List.getD_eq_getElem l d hi]
    exact List.getElem_mem hi
  · rw [List.getD_eq_default l d (Nat.le_of_not_lt hi)]
    exact hd

/-- A weighted draw returns one of the candidates. -/
theorem chooseWeighted_mem {α : Type} (s : Nat) (items : List (α × Rat)) (x : α)
    (h : chooseWeighted s items = some x) : ∃ p ∈ items, p.1 = x := by
  rw [chooseWeighted] at h
  cases hf : items.filter (fun p => decide (0 < p.2)) with
  | nil => rw [hf] at h; cases h
  | cons p ps =>
    rw [hf] at h
    simp only [Option.some.injEq] at h
    have hmem : (p :: ps).getD (s % (p :: ps).length) p ∈ p :: ps :=
      getD_mem _ _ _ (List.mem_cons_self _ _)
    have hmem2 : (p :: ps).getD (s % (p :: ps).length) p
        ∈ items.filter (fun p => decide (0 < p.2)) := by
      rw [hf]
      exact hmem
    exact ⟨_, List.mem_of_mem_filter hmem2, h⟩

/-- Every trait of a successful selection comes from the prior choices or
from one of the trait groups. -/
theorem selectTraits_mem (numIns : Nat) (u : UsageLedger) (rnd : Nat → Nat) :
    ∀ (gs : List (List TraitInfo)) (chosen : List TraitInfo) (avoid : List Nat) (pos : Nat)
      (sel : List TraitInfo) (pos2 : Nat),
      selectTraits numIns u rnd gs chosen avoid pos = (some sel, pos2) →
      ∀ t ∈ sel, t ∈ chosen ∨ ∃ g ∈ gs, t ∈ g := by
  intro gs
  induction gs with
  | nil =>
    intro chosen avoid pos sel pos2 h t ht
    simp only [selectTraits, Prod.mk.injEq, Option.some.injEq] at h
    rw [← h.1] at ht
    exact Or.inl ht
  | cons g gs ih =>
    intro chosen avoid pos sel pos2 h t ht
    cases ha : availableTraits avoid chosen g with
    | nil =>
      simp only [selectTraits, ha] at h
      simp at h
    | cons a as =>
      simp only [selectTraits, ha] at h
      by_cases hsum : ((a :: as).map (dynamicWeight numIns u)).sum = 0
      · rw [if_pos hsum] at h
        simp at h
      · rw [if_neg hsum] at h
        cases hch : chooseWeighted (rnd pos)
            ((a :: as).zip ((a :: as).map (dynamicWeight numIns u))) with
        | none => simp only [hch] at h; simp at h
        | some t0 =>
          simp only [hch] at h
          rcases ih _ _ _ _ _ h t ht with hc | ⟨g2, hg2, htg2⟩
          · rcases List.mem_append.mp hc with hc1 | hc1
            · exact Or.inl hc1
            · refine Or.inr ⟨g, List.mem_cons_self _ _, ?_⟩
              obtain ⟨pp, hpp, hpe⟩ := chooseWeighted_mem _ _ _ hch
              have hpavail : pp.1 ∈ availableTraits avoid chosen g := by
                rw [ha]
                exact (List.of_mem_zip hpp).1
              have ht0 : t = t0 := List.mem_singleton.mp hc1
              rw [ht0, ← hpe]
              exact List.mem_of_mem_filter hpavail
          · exact Or.inr ⟨g2, List.mem_cons_of_mem _ hg2, htg2⟩

/-- Coherence of a loaded catalog with its number mapping: distinct type
keys, group members typed by their key, distinct names inside a group, and
a number mapping that returns exactly the group members. -/
abbrev CatalogWF (info : TraitsInfo) (m : TraitsMapping) : Prop :=
  (info.map Prod.fst).Nodup ∧
  (∀ p ∈ info, ∀ t ∈ (p : String × List TraitInfo).2, t.type = p.1) ∧
  (∀ p ∈ info, ((p : String × List TraitInfo).2.map (fun t => t.name)).Nodup) ∧
  (∀ p ∈ info, ∀ t ∈ (p : String × List TraitInfo).2, alGet m t.number = some t)

/-- With distinct names, `find?` by name returns the member itself. -/
theorem find?_name_of_mem :
    ∀ (g : List TraitInfo) (t : TraitInfo), (g.map (fun u => u.name)).Nodup → t ∈ g →
      g.find? (fun u => decide (u.name = t.name)) = some t := by
  intro g
  induction g with
  | nil => intro t _ ht; cases ht
  | cons u rest ih =>
    intro t hnd ht
    rcases List.mem_cons.mp ht with rfl | ht2
    · rw [List.find?_cons_of_pos _ (by simp)]
    · have hne : u.name ≠ t.name := by
        intro he
        have hmem : t.name ∈ rest.map (fun u => u.name) := List.mem_map.mpr ⟨t, ht2, rfl⟩
        rw [List.map_cons] at hnd
        exact (List.nodup_cons.mp hnd).1 (he ▸ hmem)
      rw [List.find?_cons_of_neg _ (by simp [hne])]
      exact ih t (by rw [List.map_cons] at hnd; exact (List.nodup_cons.mp hnd).2) ht2

/-- Under catalog coherence, a catalog trait looks itself up. -/
theorem lookupTrait_self (info : TraitsInfo) (m : TraitsMapping) (hwf : CatalogWF info m)
    (p : String × List TraitInfo) (hp : p ∈ info) (t : TraitInfo) (ht : t ∈ p.2) :
    lookupTrait info t.type t.name = some t := by
  obtain ⟨hkeys, hty, hnames, _⟩ := hwf
  have h1 : alGet info t.type = some p.2 := by
    rw [hty p hp t ht]
    exact alGet_of_mem_nodup hkeys hp
  rw [lookupTrait, h1]
  show p.2.find? (fun u => decide (u.name = t.name)) = some t
  exact find?_name_of_mem p.2 t (hnames p hp) ht

/-- Unfolding of a passing defensive re-check: no selected trait's
blacklist resolves to a selected trait. -/
theorem validate_traits_spec (selected : List TraitInfo) (m : TraitsMapping)
    (h : validate_traits selected m = true) :
    ∀ t ∈ selected, ∀ b ∈ t.blacklist, ∀ bt, alGet m b = some bt → bt ∉ selected := by
  intro t ht b hb bt hbt hmem
  have h1 := List.all_eq_true.mp h t ht
  simp only at h1
  have h2 := List.all_eq_true.mp h1 b hb
  simp only [hbt] at h2
  have h3 : selected.any (fun s => decide (s = bt)) = true :=
    List.any_eq_true.mpr ⟨bt, hmem, by simp⟩
  rw [h3] at h2
  simp at h2

/-- A committed selection's formatted inscription passes the auditor: the
defensive re-check (with a coherent catalog) rules out every blacklist hit,
self-conflicts included. -/
theorem audit_item_empty (info : TraitsInfo) (m : TraitsMapping) (hwf : CatalogWF info m)
    (sel : List TraitInfo)
    (hsub : ∀ t ∈ sel, ∃ p ∈ info, t ∈ (p : String × List TraitInfo).2)
    (hval : validate_traits (sortedSelection info sel) m = true) (idx : Nat) :
    auditInscription info idx (formattedOf info sel) = [] := by
  have hvalP := validate_traits_spec _ _ hval
  have hmemF : ∀ e ∈ formattedOf info sel, ∃ t ∈ sel, e = (t.type, t.name) := by
    intro e he
    rw [formattedOf, List.mem_insertionSort] at he
    obtain ⟨t, htf, rfl⟩ := List.mem_map.mp he
    exact ⟨t, List.mem_of_mem_filter htf, rfl⟩
  have hnums : ∀ n ∈ inscriptionNumbers info (formattedOf info sel),
      ∃ s ∈ sel, n = s.number := by
    intro n hn
    rw [inscriptionNumbers] at hn
    obtain ⟨e, he, hfe⟩ := List.mem_filterMap.mp hn
    obtain ⟨t, htsel, rfl⟩ := hmemF e he
    obtain ⟨p, hp, htp⟩ := hsub t htsel
    dsimp only at hfe
    rw [lookupTrait_self info m hwf p hp t htp] at hfe
    simp only [Option.map_some', Option.some.injEq] at hfe
    exact ⟨t, htsel, hfe.symm⟩
  rw [auditInscription, List.filterMap_eq_nil_iff]
  intro e he
  obtain ⟨t, htsel, rfl⟩ := hmemF e he
  dsimp only
  rw [lookupTrait_self info m hwf
    (Classical.choose (hsub t htsel)) (Classical.choose_spec (hsub t htsel)).1 t
    (Classical.choose_spec (hsub t htsel)).2]
  have hconf : (inscriptionNumbers info (formattedOf info sel)).filter
      (fun n => decide (n ∈ t.blacklist)) = [] := by
    rw [List.filter_eq_nil_iff]
    intro n hn hdec
    have hnbl : n ∈ t.blacklist := of_decide_eq_true hdec
    obtain ⟨s, hssel, rfl⟩ := hnums n hn
    obtain ⟨ps, hps, hsps⟩ := hsub s hssel
    have hsm : alGet m s.number = some s := hwf.2.2.2 ps hps s hsps
    have hnot := hvalP t
      (by rw [sortedSelection, List.mem_insertionSort]; exact htsel) s.number hnbl s hsm
    exact hnot (by rw [sortedSelection, List.mem_insertionSort]; exact hssel)
  simp [hconf]

/-- One item of the generator preserves auditor-cleanliness of the
collection. -/
theorem itemLoop_audit (info : TraitsInfo) (m : TraitsMapping) (numIns : Nat)
    (rnd : Nat → Nat) (hwf : CatalogWF info m) :
    ∀ (fuel : Nat) (st : GenState) (attempts pos : Nat) (flag : Bool) (st2 : GenState)
      (pos2 : Nat),
      itemLoop info m numIns rnd fuel st attempts pos = some (flag, st2, pos2) →
      (∀ f ∈ st.collection, ∀ idx, auditInscription info idx f = []) →
      (∀ f ∈ st2.collection, ∀ idx, auditInscription info idx f = []) := by
  intro fuel
  induction fuel with
  | zero => intro st attempts pos flag st2 pos2 h; simp [itemLoop] at h
  | succ k ih =>
    intro st attempts pos flag st2 pos2 h hok
    rcases hsel : selectTraits numIns st.usage rnd (permOfSeed (rnd pos) (info.map (·.2)))
        [] [] (pos + 1) with ⟨selOpt, pos3⟩
    cases selOpt with
    | none =>
      simp only [itemLoop, hsel] at h
      by_cases hc : 10000 ≤ attempts + 1
      · rw [if_pos hc] at h
        cases h
        exact hok
      · rw [if_neg hc] at h
        exact ih _ _ _ _ _ _ h hok
    | some sel =>
      simp only [itemLoop, hsel] at h
      by_cases hdup : canonicalSig info sel ∈ st.hashes
      · rw [if_pos hdup] at h
        by_cases hc : 10000 ≤ attempts + 1
        · rw [if_pos hc] at h
          cases h
          exact hok
        · rw [if_neg hc] at h
          exact ih _ _ _ _ _ _ h hok
      · rw [if_neg hdup] at h
        by_cases hval : validate_traits (sortedSelection info sel) m = true
        · rw [if_pos hval] at h
          cases h
          intro f hf idx
          rcases List.mem_append.mp hf with hf1 | hf1
          · exact hok f hf1 idx
          · rw [List.mem_singleton.mp hf1]
            have hsub : ∀ t ∈ sel, ∃ p ∈ info, t ∈ (p : String × List TraitInfo).2 := by
              intro t ht
              rcases selectTraits_mem numIns st.usage rnd _ _ _ _ _ _ hsel t ht with
                hc | ⟨g, hg, htg⟩
              · cases hc
              · have hgm : g ∈ info.map (·.2) :=
                  ((permOfSeed_perm (rnd pos) (info.map (·.2))).mem_iff).mp hg
                obtain ⟨p, hp, hpe⟩ := List.mem_map.mp hgm
                exact ⟨p, hp, by rw [hpe]; exact htg⟩
            exact audit_item_empty info m hwf sel hsub hval idx
        · rw [if_neg hval] at h
          exact ih _ _ _ _ _ _ h hok

/-- Claim C2: every collection returned by the generator is free of
blacklist conflicts — the post-hoc auditor returns the empty inconsistency
report (catalog coherence assumed, as produced by the loader). -/
theorem generated_collection_audit_clean (info : TraitsInfo) (m : TraitsMapping)
    (numIns fuel : Nat) (rnd : Nat → Nat) (pos : Nat) (res : GenResult)
    (hwf : CatalogWF info m)
    (h : generate_inscriptions info m numIns fuel rnd pos = some res) :
    validate_inscription_avoidance res.collection info = [] := by
  suffices H : ∀ f ∈ res.collection, ∀ idx, auditInscription info idx f = [] by
    rw [validate_inscription_avoidance, List.flatten_eq_nil_iff]
    intro x hx
    obtain ⟨pr, hpr, hpx⟩ := List.mem_map.mp hx
    have hmem : pr.2 ∈ res.collection := by
      rw [List.enum_eq_zip_range] at hpr
      obtain ⟨i, a⟩ := pr
      exact (List.of_mem_zip hpr).2
    rw [← hpx]
    exact H pr.2 hmem (pr.1 + 1)
  suffices H2 : ∀ (n : Nat) (st : GenState) (pos2 : Nat),
      (∀ f ∈ st.collection, ∀ idx, auditInscription info idx f = []) →
      ∀ r, genLoop info m numIns rnd fuel n st pos2 = some r →
      ∀ f ∈ r.collection, ∀ idx, auditInscription info idx f = [] by
    exact H2 numIns (initState info) pos (by intro f hf; cases hf) res h
  intro n
  induction n with
  | zero =>
    intro st pos2 hok r hr
    simp only [genLoop, Option.some.injEq] at hr
    rw [← hr]
    intro f hf
    exact hok f ((permOfSeed_perm (rnd pos2) st.collection).mem_iff.mp hf)
  | succ k ih =>
    intro st pos2 hok r hr
    simp only [genLoop] at hr
    cases hitem : itemLoop info m numIns rnd fuel st 0 pos2 with
    | none => rw [hitem] at hr; cases hr
    | some trip =>
      rw [hitem] at hr
      obtain ⟨flag, st2, pos3⟩ := trip
      have hok2 := itemLoop_audit info m numIns rnd hwf fuel st 0 pos2 flag st2 pos3 hitem hok
      cases flag
      · simp only [Option.some.injEq] at hr
        rw [← hr]
        exact hok2
      · exact ih st2 pos3 hok2 r hr

/-- Witness for claim C2 at the concrete one-trait catalog. -/
theorem generated_collection_audit_clean_witness :
    validate_inscription_avoidance resWitness.collection infoWitness = [] :=
  generated_collection_audit_clean infoWitness mapWitness 1 3 rndZero 0 resWitness
    (by decide) (by decide)

/-- Under coherence with nonempty groups, the `ordered_traits` list is the
list of trait-type keys in declaration order. -/
theorem orderedTypes_eq_keys (info : TraitsInfo)
    (hty : ∀ p ∈ info, ∀ t ∈ (p : String × List TraitInfo).2, t.type = p.1)
    (hne : ∀ p ∈ info, (p : String × List TraitInfo).2 ≠ []) :
    orderedTypes info = info.map Prod.fst := by
  rw [orderedTypes]
  apply List.map_congr_left
  intro p hp
  cases hg : p.2 with
  | nil => exact absurd hg (hne p hp)
  | cons t rest =>
    simp only [List.head?_cons, Option.map_some', Option.getD_some]
    exact hty p hp t (by rw [hg]; exact List.mem_cons_self _ _)

/-- Within one list, membership makes `indexOf` injective. -/
theorem indexOf_inj_of_mem {α : Type} [DecidableEq α] {keys : List α} {a b : α}
    (ha : a ∈ keys) (hb : b ∈ keys) (h : keys.indexOf a = keys.indexOf b) : a = b := by
  have ha2 := List.indexOf_lt_length.mpr ha
  have hb2 := List.indexOf_lt_length.mpr hb
  have h1 := List.getElem_indexOf ha2
  have h2 := List.getElem_indexOf hb2
  rw [← h1, ← h2]
  simp only [h]

/-- A list with distinct entries is strictly increasing in its own
`indexOf`. -/
theorem pairwise_indexOf_lt (keys : List String) (h : keys.Nodup) :
    List.Pairwise (fun a b => keys.indexOf a < keys.indexOf b) keys := by
  induction keys with
  | nil => exact List.Pairwise.nil
  | cons k ks ih =>
    have hk : k ∉ ks := (List.nodup_cons.mp h).1
    refine List.Pairwise.cons ?_ ?_
    · intro b hb
      have hbk : b ≠ k := fun he => hk (he ▸ hb)
      rw [List.indexOf_cons_self, List.indexOf_cons_ne ks (Ne.symm hbk)]
      exact Nat.succ_pos _
    · refine (ih (List.nodup_cons.mp h).2).imp_of_mem ?_
      intro a b ha hb hab
      have hak : a ≠ k := fun he => hk (he ▸ ha)
      have hbk : b ≠ k := fun he => hk (he ▸ hb)
      rw [List.indexOf_cons_ne ks (Ne.symm hak), List.indexOf_cons_ne ks (Ne.symm hbk)]
      exact Nat.succ_lt_succ hab

/-- A weak sort order upgrades to a strict one when the keys are distinct. -/
theorem pairwise_le_lt {α : Type} (key : α → Nat) (l : List α)
    (hle : List.Pairwise (fun a b => key a ≤ key b) l)
    (hnd : (l.map key).Nodup) :
    List.Pairwise (fun a b => key a < key b) l := by
  have hne : List.Pairwise (fun a b => key a ≠ key b) l := List.pairwise_map.mp hnd
  exact (hle.and hne).imp (fun h => Nat.lt_of_le_of_ne h.1 h.2)

/-- Two lists sorted strictly by a numeric key and permuting each other are
equal. -/
theorem eq_of_perm_sorted_keys {α : Type} (key : α → Nat) (l1 l2 : List α)
    (hp : l1.Perm l2)
    (h1 : List.Pairwise (fun a b => key a < key b) l1)
    (h2 : List.Pairwise (fun a b => key a < key b) l2) : l1 = l2 := by
  haveI : IsAntisymm α (fun a b => key a < key b) :=
    ⟨fun a b hab hba => absurd (Nat.lt_trans hab hba) (Nat.lt_irrefl _)⟩
  exact List.eq_of_perm_of_sorted hp h1 h2

/-- Strips the "none"-valued pairs from a canonical signature; this is the
formatting step that turns the hashed sequence into the stored item. -/
def stripNone (s : List (String × String)) : List (String × String) :=
  s.filter (fun p => decide (p.2 ≠ "none"))

/-- Insertion sort by a numeric key with duplicate-free key values is
strictly sorted. -/
theorem insertionSort_pairwise_lt {α : Type} (key : α → Nat) (l : List α)
    (hnd : (l.map key).Nodup) :
    List.Pairwise (fun a b => key a < key b)
      (l.insertionSort (fun a b => key a ≤ key b)) := by
  haveI : IsTotal α (fun a b => key a ≤ key b) := ⟨fun a b => Nat.le_total _ _⟩
  haveI : IsTrans α (fun a b => key a ≤ key b) := ⟨fun a b c => Nat.le_trans⟩
  have hs := List.sorted_insertionSort (fun a b => key a ≤ key b) l
  refine pairwise_le_lt key _ hs ?_
  exact (((List.perm_insertionSort _ l).map key).symm).nodup hnd

/-- A successful selection appends to the prior choices exactly one trait
picked from each trait group, in group order. -/
theorem selectTraits_forall2 (numIns : Nat) (u : UsageLedger) (rnd : Nat → Nat) :
    ∀ (gs : List (List TraitInfo)) (chosen : List TraitInfo) (avoid : List Nat) (pos : Nat)
      (sel : List TraitInfo) (pos2 : Nat),
      selectTraits numIns u rnd gs chosen avoid pos = (some sel, pos2) →
      ∃ picks, sel = chosen ++ picks ∧ List.Forall₂ (· ∈ ·) picks gs := by
  intro gs
  induction gs with
  | nil =>
    intro chosen avoid pos sel pos2 h
    simp only [selectTraits, Prod.mk.injEq, Option.some.injEq] at h
    exact ⟨[], by rw [← h.1, List.append_nil], List.Forall₂.nil⟩
  | cons g gs ih =>
    intro chosen avoid pos sel pos2 h
    cases ha : availableTraits avoid chosen g with
    | nil =>
      simp only [selectTraits, ha] at h
      simp at h
    | cons a as =>
      simp only [selectTraits, ha] at h
      by_cases hsum : ((a :: as).map (dynamicWeight numIns u)).sum = 0
      · rw [if_pos hsum] at h
        simp at h
      · rw [if_neg hsum] at h
        cases hch : chooseWeighted (rnd pos)
            ((a :: as).zip ((a :: as).map (dynamicWeight numIns u))) with
        | none => simp only [hch] at h; simp at h
        | some t0 =>
          simp only [hch] at h
          obtain ⟨picks, hpe, hpf⟩ := ih _ _ _ _ _ h
          refine ⟨t0 :: picks, ?_, ?_⟩
          · rw [hpe, List.append_assoc, List.singleton_append]
          · refine List.Forall₂.cons ?_ hpf
            obtain ⟨pp, hpp, hppe⟩ := chooseWeighted_mem _ _ _ hch
            have hpavail : pp.1 ∈ availableTraits avoid chosen g := by
              rw [ha]
              exact (List.of_mem_zip hpp).1
            rw [← hppe]
            exact List.mem_of_mem_filter hpavail

/-- Pointwise picks from groups have the group-head types. -/
theorem forall2_map_type (picks : List TraitInfo) (gs : List (List TraitInfo))
    (hf : List.Forall₂ (· ∈ ·) picks gs)
    (hk : ∀ g ∈ gs, ∀ t ∈ g, t.type = ((g.head?.map (fun x => x.type)).getD "")) :
    picks.map (fun t => t.type)
      = gs.map (fun g => ((g.head?.map (fun x => x.type)).getD "")) := by
  induction hf with
  | nil => rfl
  | cons h hf2 ih =>
    rw [List.map_cons, List.map_cons]
    refine congrArg₂ _ ?_ ?_
    · exact hk _ (List.mem_cons_self _ _) _ h
    · exact ih (fun g hg t ht => hk g (List.mem_cons_of_mem _ hg) t ht)

/-- A full selection from the shuffled groups carries exactly the catalog's
trait-type keys, in some order. -/
theorem selection_types_perm (info : TraitsInfo) (numIns : Nat) (u : UsageLedger)
    (rnd : Nat → Nat) (s pos : Nat) (sel : List TraitInfo) (pos2 : Nat)
    (hty : ∀ p ∈ info, ∀ t ∈ (p : String × List TraitInfo).2, t.type = p.1)
    (hne : ∀ p ∈ info, (p : String × List TraitInfo).2 ≠ [])
    (h : selectTraits numIns u rnd (permOfSeed s (info.map (·.2))) [] [] pos
      = (some sel, pos2)) :
    (sel.map (fun t => t.type)).Perm (info.map Prod.fst) := by
  obtain ⟨picks, hpe, hpf⟩ := selectTraits_forall2 numIns u rnd _ _ _ _ _ _ h
  rw [List.nil_append] at hpe
  subst hpe
  rw [forall2_map_type _ _ hpf ?hk]
  case hk =>
    intro g hg t htg
    have hgmem : g ∈ info.map (·.2) := (permOfSeed_perm s (info.map (·.2))).mem_iff.mp hg
    obtain ⟨p, hp, hpe2⟩ := List.mem_map.mp hgmem
    cases g with
    | nil => cases htg
    | cons t0 rest =>
      simp only [List.head?_cons, Option.map_some', Option.getD_some]
      rw [hty p hp t (by rw [hpe2]; exact htg),
        hty p hp t0 (by rw [hpe2]; exact List.mem_cons_self _ _)]
  have hstep : ((permOfSeed s (info.map (·.2))).map
        (fun g => ((g.head?.map (fun x => x.type)).getD ""))).Perm (orderedTypes info) := by
    have h2 := (permOfSeed_perm s (info.map (·.2))).map
      (fun g => ((g.head?.map (fun x => x.type)).getD ""))
    rw [List.map_map] at h2
    exact h2
  rw [orderedTypes_eq_keys info hty hne] at hstep
  exact hstep

/-- Sorting a selection that carries each catalog type exactly once restores
the catalog's declaration order of the types exactly. -/
theorem sortedSelection_types (info : TraitsInfo) (sel : List TraitInfo)
    (hkeys : (info.map Prod.fst).Nodup)
    (hty : ∀ p ∈ info, ∀ t ∈ (p : String × List TraitInfo).2, t.type = p.1)
    (hne : ∀ p ∈ info, (p : String × List TraitInfo).2 ≠ [])
    (hperm : (sel.map (fun t => t.type)).Perm (info.map Prod.fst)) :
    (sortedSelection info sel).map (fun t => t.type) = info.map Prod.fst := by
  have hndsel : (sel.map (fun t => t.type)).Nodup := hperm.symm.nodup hkeys
  have hknd : (sel.map (fun t => (info.map Prod.fst).indexOf t.type)).Nodup := by
    have hmm : sel.map (fun t => (info.map Prod.fst).indexOf t.type)
        = (sel.map (fun t => t.type)).map (fun x => (info.map Prod.fst).indexOf x) := by
      rw [List.map_map]
      rfl
    rw [hmm]
    refine List.Nodup.map_on ?_ hndsel
    intro x hx y hy hxy
    exact indexOf_inj_of_mem (hperm.mem_iff.mp hx) (hperm.mem_iff.mp hy) hxy
  have hpw : List.Pairwise (fun a b : TraitInfo =>
      (info.map Prod.fst).indexOf a.type < (info.map Prod.fst).indexOf b.type)
      (sortedSelection info sel) := by
    rw [sortedSelection, orderedTypes_eq_keys info hty hne]
    exact insertionSort_pairwise_lt (fun t => (info.map Prod.fst).indexOf t.type) sel hknd
  have hperm2 : ((sortedSelection info sel).map (fun t => t.type)).Perm
      (info.map Prod.fst) :=
    ((List.perm_insertionSort _ sel).map (fun t => t.type)).trans hperm
  have hpw2 : List.Pairwise (fun a b : String =>
      (info.map Prod.fst).indexOf a < (info.map Prod.fst).indexOf b)
      ((sortedSelection info sel).map (fun t => t.type)) :=
    List.pairwise_map.mpr hpw
  exact eq_of_perm_sorted_keys (fun x => (info.map Prod.fst).indexOf x) _ _ hperm2 hpw2
    (pairwise_indexOf_lt _ hkeys)

/-- The canonical signature of a full selection is keyed by the catalog's
type sequence. -/
theorem canonicalSig_fst (info : TraitsInfo) (sel : List TraitInfo)
    (hkeys : (info.map Prod.fst).Nodup)
    (hty : ∀ p ∈ info, ∀ t ∈ (p : String × List TraitInfo).2, t.type = p.1)
    (hne : ∀ p ∈ info, (p : String × List TraitInfo).2 ≠ [])
    (hperm : (sel.map (fun t => t.type)).Perm (info.map Prod.fst)) :
    (canonicalSig info sel).map Prod.fst = info.map Prod.fst := by
  rw [canonicalSig, List.map_map]
  exact sortedSelection_types info sel hkeys hty hne hperm

/-- Stripping the "none" pairs is injective across signatures sharing one
duplicate-free key sequence. -/
theorem stripNone_inj :
    ∀ (keys : List String), keys.Nodup →
      ∀ (s1 s2 : List (String × String)), s1.map Prod.fst = keys →
        s2.map Prod.fst = keys → stripNone s1 = stripNone s2 → s1 = s2 := by
  intro keys
  induction keys with
  | nil =>
    intro _ s1 s2 h1 h2 _
    cases s1 with
    | nil =>
      cases s2 with
      | nil => rfl
      | cons p2 t2 => simp at h2
    | cons p1 t1 => simp at h1
  | cons k ks ih =>
    intro hnd s1 s2 h1 h2 hs
    obtain ⟨hk, hks⟩ := List.nodup_cons.mp hnd
    cases s1 with
    | nil => simp at h1
    | cons p1 t1 =>
      cases s2 with
      | nil => simp at h2
      | cons p2 t2 =>
        obtain ⟨ka, va⟩ := p1
        obtain ⟨kb, vb⟩ := p2
        rw [List.map_cons] at h1 h2
        injection h1 with h1a h1b
        injection h2 with h2a h2b
        cases h1a
        cases h2a
        by_cases hva : va = "none"
        · by_cases hvb : vb = "none"
          · rw [hva, hvb]
            rw [stripNone, stripNone, List.filter_cons_of_neg (by simp [hva]),
              List.filter_cons_of_neg (by simp [hvb])] at hs
            rw [ih hks t1 t2 h1b h2b hs]
          · rw [stripNone, stripNone, List.filter_cons_of_neg (by simp [hva]),
              List.filter_cons_of_pos (by simp [hvb])] at hs
            exfalso
            apply hk
            rw [← h1b]
            refine List.mem_map.mpr ⟨(ka, vb), ?_, rfl⟩
            exact List.mem_of_mem_filter (hs ▸ List.mem_cons_self _ _)
        · by_cases hvb : vb = "none"
          · rw [stripNone, stripNone, List.filter_cons_of_pos (by simp [hva]),
              List.filter_cons_of_neg (by simp [hvb])] at hs
            exfalso
            apply hk
            rw [← h2b]
            refine List.mem_map.mpr ⟨(ka, va), ?_, rfl⟩
            exact List.mem_of_mem_filter (hs.symm ▸ List.mem_cons_self _ _)
          · rw [stripNone, stripNone, List.filter_cons_of_pos (by simp [hva]),
              List.filter_cons_of_pos (by simp [hvb])] at hs
            injection hs with hsa hsb
            injection hsa with _ hval
            rw [hval, ih hks t1 t2 h1b h2b hsb]

/-- The stored formatted item of a full selection is exactly the canonical
signature with its "none" pairs stripped. -/
theorem formattedOf_eq_stripNone (info : TraitsInfo) (sel : List TraitInfo)
    (hkeys : (info.map Prod.fst).Nodup)
    (hty : ∀ p ∈ info, ∀ t ∈ (p : String × List TraitInfo).2, t.type = p.1)
    (hne : ∀ p ∈ info, (p : String × List TraitInfo).2 ≠ [])
    (hperm : (sel.map (fun t => t.type)).Perm (info.map Prod.fst)) :
    formattedOf info sel = stripNone (canonicalSig info sel) := by
  have hndsel : (sel.map (fun t => t.type)).Nodup := hperm.symm.nodup hkeys
  have hself : ∀ l : List TraitInfo, l.Sublist sel →
      (l.map (fun t => (info.map Prod.fst).indexOf t.type)).Nodup := by
    intro l hl
    have hnd1 : (l.map (fun t => t.type)).Nodup :=
      List.Nodup.sublist (hl.map _) hndsel
    have hmm : l.map (fun t => (info.map Prod.fst).indexOf t.type)
        = (l.map (fun t => t.type)).map (fun x => (info.map Prod.fst).indexOf x) := by
      rw [List.map_map]
      rfl
    rw [hmm]
    refine List.Nodup.map_on ?_ hnd1
    intro x hx y hy hxy
    have hx2 : x ∈ info.map Prod.fst := hperm.mem_iff.mp ((hl.map _).subset hx)
    have hy2 : y ∈ info.map Prod.fst := hperm.mem_iff.mp ((hl.map _).subset hy)
    exact indexOf_inj_of_mem hx2 hy2 hxy
  simp only [formattedOf, canonicalSig, sortedSelection, orderedTypes_eq_keys info hty hne]
  rw [stripNone, List.filter_map]
  have hcompq : ((fun p : String × String => decide (p.2 ≠ "none")) ∘
      (fun t : TraitInfo => (t.type, t.name)))
      = (fun t : TraitInfo => decide (t.name ≠ "none")) := rfl
  rw [hcompq]
  refine eq_of_perm_sorted_keys
    (fun p : String × String => (info.map Prod.fst).indexOf p.1) _ _ ?_ ?_ ?_
  · refine (List.perm_insertionSort _ _).trans ?_
    exact (((List.perm_insertionSort _ sel).filter _).map _).symm
  · have hnd : (((sel.filter (fun t => decide (t.name ≠ "none"))).map
        (fun t => (t.type, t.name))).map
        (fun p : String × String => (info.map Prod.fst).indexOf p.1)).Nodup := by
      have hmm2 : ((sel.filter (fun t => decide (t.name ≠ "none"))).map
          (fun t : TraitInfo => (t.type, t.name))).map
          (fun p : String × String => (info.map Prod.fst).indexOf p.1)
          = (sel.filter (fun t => decide (t.name ≠ "none"))).map
            (fun t => (info.map Prod.fst).indexOf t.type) := by
        rw [List.map_map]
        rfl
      rw [hmm2]
      exact hself _ (List.filter_sublist sel)
    exact insertionSort_pairwise_lt _ _ hnd
  · have hLpw := insertionSort_pairwise_lt
      (fun t : TraitInfo => (info.map Prod.fst).indexOf t.type) sel
      (hself sel (List.Sublist.refl sel))
    have hfpw := List.Pairwise.sublist
      (@List.filter_sublist TraitInfo (fun t => decide (t.name ≠ "none")) _) hLpw
    exact List.pairwise_map.mpr hfpw

/-- Bookkeeping invariant of the generator state: the collection is the
stripped image of a duplicate-free list of registered signatures, each keyed
by the catalog's type sequence. -/
def SigInv (info : TraitsInfo) (st : GenState) : Prop :=
  ∃ sigs : List (List (String × String)),
    sigs.Nodup ∧
    (∀ s ∈ sigs, s.map Prod.fst = info.map Prod.fst ∧ s ∈ st.hashes) ∧
    st.collection = sigs.map stripNone

/-- Under the invariant the collection has no duplicate items. -/
theorem sigInv_nodup (info : TraitsInfo) (st : GenState)
    (hkeys : (info.map Prod.fst).Nodup) (h : SigInv info st) : st.collection.Nodup := by
  obtain ⟨sigs, hnd, hmem, hcol⟩ := h
  rw [hcol]
  refine List.Nodup.map_on ?_ hnd
  intro x hx y hy hxy
  exact stripNone_inj (info.map Prod.fst) hkeys x y (hmem x hx).1 (hmem y hy).1 hxy

/-- The per-item loop preserves the signature invariant: duplicates are
rejected against `generated_hashes`, and a commit registers the fresh
signature together with its stripped item. -/
theorem itemLoop_sigInv (info : TraitsInfo) (m : TraitsMapping) (numIns : Nat)
    (rnd : Nat → Nat)
    (hkeys : (info.map Prod.fst).Nodup)
    (hty : ∀ p ∈ info, ∀ t ∈ (p : String × List TraitInfo).2, t.type = p.1)
    (hne : ∀ p ∈ info, (p : String × List TraitInfo).2 ≠ []) :
    ∀ (fuel : Nat) (st : GenState) (attempts pos : Nat) (flag : Bool) (st2 : GenState)
      (pos2 : Nat),
      itemLoop info m numIns rnd fuel st attempts pos = some (flag, st2, pos2) →
      SigInv info st → SigInv info st2 := by
  intro fuel
  induction fuel with
  | zero => intro st attempts pos flag st2 pos2 h; simp [itemLoop] at h
  | succ k ih =>
    intro st attempts pos flag st2 pos2 h hinv
    rcases hsel : selectTraits numIns st.usage rnd (permOfSeed (rnd pos) (info.map (·.2)))
        [] [] (pos + 1) with ⟨selOpt, pos3⟩
    cases selOpt with
    | none =>
      simp only [itemLoop, hsel] at h
      by_cases hc : 10000 ≤ attempts + 1
      · rw [if_pos hc] at h
        cases h
        exact hinv
      · rw [if_neg hc] at h
        exact ih _ _ _ _ _ _ h hinv
    | some sel =>
      simp only [itemLoop, hsel] at h
      by_cases hdup : canonicalSig info sel ∈ st.hashes
      · rw [if_pos hdup] at h
        by_cases hc : 10000 ≤ attempts + 1
        · rw [if_pos hc] at h
          cases h
          exact hinv
        · rw [if_neg hc] at h
          exact ih _ _ _ _ _ _ h hinv
      · rw [if_neg hdup] at h
        by_cases hval : validate_traits (sortedSelection info sel) m = true
        · rw [if_pos hval] at h
          cases h
          obtain ⟨sigs, hnd, hmem, hcol⟩ := hinv
          have hperm := selection_types_perm info numIns st.usage rnd (rnd pos) (pos + 1)
            sel _ hty hne hsel
          have hkey := canonicalSig_fst info sel hkeys hty hne hperm
          refine ⟨sigs ++ [canonicalSig info sel], ?_, ?_, ?_⟩
          · rw [List.nodup_append]
            refine ⟨hnd, List.nodup_singleton _, ?_⟩
            intro s hs1 hs2
            rw [List.mem_singleton] at hs2
            exact hdup (hs2 ▸ (hmem s hs1).2)
          · intro s hs
            rcases List.mem_append.mp hs with hs1 | hs1
            · refine ⟨(hmem s hs1).1, ?_⟩
              show s ∈ canonicalSig info sel :: st.hashes
              exact List.mem_cons_of_mem _ (hmem s hs1).2
            · rw [List.mem_singleton] at hs1
              subst hs1
              exact ⟨hkey, List.mem_cons_self _ _⟩
          · show st.collection ++ [formattedOf info sel]
              = (sigs ++ [canonicalSig info sel]).map stripNone
            rw [List.map_append, hcol, formattedOf_eq_stripNone info sel hkeys hty hne hperm]
            rfl
        · rw [if_neg hval] at h
          refine ih _ _ _ _ _ _ h ?_
          obtain ⟨sigs, hnd, hmem, hcol⟩ := hinv
          exact ⟨sigs, hnd,
            fun s hs => ⟨(hmem s hs).1, List.mem_cons_of_mem _ (hmem s hs).2⟩, hcol⟩

/-- The outer loop turns the signature invariant into a duplicate-free
returned collection on both return paths. -/
theorem genLoop_sigInv (info : TraitsInfo) (m : TraitsMapping) (numIns : Nat)
    (rnd : Nat → Nat) (fuel : Nat)
    (hkeys : (info.map Prod.fst).Nodup)
    (hty : ∀ p ∈ info, ∀ t ∈ (p : String × List TraitInfo).2, t.type = p.1)
    (hne : ∀ p ∈ info, (p : String × List TraitInfo).2 ≠ []) :
    ∀ (n : Nat) (st : GenState) (pos : Nat) (r : GenResult),
      genLoop info m numIns rnd fuel n st pos = some r → SigInv info st →
      r.collection.Nodup := by
  intro n
  induction n with
  | zero =>
    intro st pos r hr hinv
    simp only [genLoop, Option.some.injEq] at hr
    rw [← hr]
    show (permOfSeed (rnd pos) st.collection).Nodup
    exact ((permOfSeed_perm (rnd pos) st.collection).symm).nodup
      (sigInv_nodup info st hkeys hinv)
  | succ k ih =>
    intro st pos r hr hinv
    simp only [genLoop] at hr
    cases hitem : itemLoop info m numIns rnd fuel st 0 pos with
    | none => rw [hitem] at hr; cases hr
    | some trip =>
      rw [hitem] at hr
      obtain ⟨flag, st2, pos3⟩ := trip
      have hinv2 := itemLoop_sigInv info m numIns rnd hkeys hty hne fuel st 0 pos
        flag st2 pos3 hitem hinv
      cases flag
      · simp only [Option.some.injEq] at hr
        rw [← hr]
        exact sigInv_nodup info st2 hkeys hinv2
      · exact ih st2 pos3 r hr hinv2

/-- Claim C5: whenever the program returns a collection — completed or
abandoned early — no two of its items are the same combination: the items,
each the stripped canonical signature of its committed selection, are
pairwise distinct, because every commit is guarded by freshness of the
canonical signature in `generated_hashes`.  The hypotheses state catalog
coherence as `load_traits_info` builds it: distinct type keys, members
typed by their key, no empty trait group. -/
theorem committed_combinations_distinct (info : TraitsInfo) (m : TraitsMapping)
    (numIns fuel : Nat) (rnd : Nat → Nat) (pos : Nat) (res : GenResult)
    (hkeys : (info.map Prod.fst).Nodup)
    (hty : ∀ p ∈ info, ∀ t ∈ (p : String × List TraitInfo).2, t.type = p.1)
    (hne : ∀ p ∈ info, (p : String × List TraitInfo).2 ≠ [])
    (hrun : generate_inscriptions info m numIns fuel rnd pos = some res) :
    res.collection.Nodup :=
  genLoop_sigInv info m numIns rnd fuel hkeys hty hne numIns (initState info) pos res hrun
    ⟨[], List.nodup_nil, fun s hs => absurd hs (List.not_mem_nil s), rfl⟩

/-- Witness for claim C5 at the concrete one-trait catalog. -/
theorem committed_combinations_distinct_witness : resWitness.collection.Nodup :=
  committed_combinations_distinct infoWitness mapWitness 1 3 rndZero 0 resWitness
    (by decide) (by decide) (by decide) (by decide)

/-- All tuples of a given length over a pool of entries. -/
def tuples {α : Type} : Nat → List α → List (List α)
  | 0, _ => [[]]
  | n + 1, pool => (pool.map (fun a => (tuples n pool).map (fun s => a :: s))).flatten

/-- Every list of the right length over the pool is among the tuples. -/
theorem mem_tuples {α : Type} :
    ∀ (n : Nat) (pool : List α) (s : List α), s.length = n → (∀ x ∈ s, x ∈ pool) →
      s ∈ tuples n pool := by
  intro n
  induction n with
  | zero =>
    intro pool s hl _
    rw [List.length_eq_zero] at hl
    rw [hl, tuples]
    exact List.mem_singleton.mpr rfl
  | succ k ih =>
    intro pool s hl hm
    cases s with
    | nil => simp at hl
    | cons a t =>
      rw [tuples]
      refine List.mem_flatten.mpr ⟨(tuples k pool).map (fun s => a :: s), ?_, ?_⟩
      · exact List.mem_map.mpr ⟨a, hm a (List.mem_cons_self _ _), rfl⟩
      · refine List.mem_map.mpr ⟨t, ?_, rfl⟩
        exact ih pool t (by simpa using hl) (fun x hx => hm x (List.mem_cons_of_mem _ hx))

/-- Every (type, name) pair of the catalog. -/
def allPairs (info : TraitsInfo) : List (String × String) :=
  (info.map (fun p => p.2.map (fun t => (t.type, t.name)))).flatten

/-- A pointwise-stronger predicate that newly covers a list member counts
strictly more of the list. -/
theorem countP_lt_of_mem {α : Type} (p q : α → Bool)
    (himp : ∀ x, p x = true → q x = true) :
    ∀ (D : List α) (a : α), a ∈ D → p a = false → q a = true →
      D.countP p + 1 ≤ D.countP q := by
  intro D
  induction D with
  | nil => intro a ha; cases ha
  | cons d D ih =>
    intro a ha hpa hqa
    rw [List.countP_cons, List.countP_cons]
    have hmono : D.countP p ≤ D.countP q := List.countP_mono_left (fun x _ => himp x)
    have hhead : (if p d = true then (1 : Nat) else 0) ≤ (if q d = true then (1 : Nat) else 0) := by
      by_cases hpd : p d = true
      · rw [if_pos hpd, if_pos (himp d hpd)]
      · rw [if_neg hpd]
        omega
    rcases List.mem_cons.mp ha with rfl | ha2
    · rw [hpa, hqa]
      have e1 : (if (true : Bool) = true then (1 : Nat) else 0) = 1 := rfl
      have e2 : (if (false : Bool) = true then (1 : Nat) else 0) = 0 := rfl
      rw [e1, e2]
      omega
    · have hstep := ih a ha2 hpa hqa
      omega

/-- Sufficient unrolling depth for the per-item loop: each retry either
advances the attempt counter towards the 10000 abandonment threshold or
registers a signature not seen before, and only finitely many candidate
signatures exist. -/
theorem itemLoop_total (info : TraitsInfo) (m : TraitsMapping) (numIns : Nat)
    (rnd : Nat → Nat) :
    ∀ (fuel : Nat) (st : GenState) (attempts pos : Nat),
      attempts < 10000 →
      (10000 - attempts) +
        (((tuples info.length (allPairs info)).dedup).length -
          ((tuples info.length (allPairs info)).dedup).countP
            (fun s => decide (s ∈ st.hashes))) ≤ fuel →
      itemLoop info m numIns rnd fuel st attempts pos ≠ none := by
  intro fuel
  induction fuel with
  | zero =>
    intro st attempts pos hat hle _
    omega
  | succ k ih =>
    intro st attempts pos hat hle h
    rcases hsel2 : selectTraits numIns st.usage rnd (permOfSeed (rnd pos) (info.map (·.2)))
        [] [] (pos + 1) with ⟨selOpt, pos3⟩
    cases selOpt with
    | none =>
      simp only [itemLoop, hsel2] at h
      by_cases hc : 10000 ≤ attempts + 1
      · rw [if_pos hc] at h; cases h
      · rw [if_neg hc] at h
        exact ih st (attempts + 1) pos3 (by omega) (by omega) h
    | some sel =>
      simp only [itemLoop, hsel2] at h
      by_cases hdup : canonicalSig info sel ∈ st.hashes
      · rw [if_pos hdup] at h
        by_cases hc : 10000 ≤ attempts + 1
        · rw [if_pos hc] at h; cases h
        · rw [if_neg hc] at h
          exact ih st (attempts + 1) pos3 (by omega) (by omega) h
      · rw [if_neg hdup] at h
        by_cases hval : validate_traits (sortedSelection info sel) m = true
        · rw [if_pos hval] at h; cases h
        · rw [if_neg hval] at h
          have hlen : sel.length = info.length := by
            have h1 := selectTraits_length numIns st.usage rnd _ _ _ _ _ _ hsel2
            have h2 : (permOfSeed (rnd pos) (info.map (·.2))).length
                = (info.map (·.2)).length :=
              (permOfSeed_perm (rnd pos) (info.map (·.2))).length_eq
            simp only [List.length_map] at h2
            simpa [h2] using h1
          have hsig : canonicalSig info sel ∈ (tuples info.length (allPairs info)).dedup := by
            rw [List.mem_dedup]
            refine mem_tuples _ _ _ ?_ ?_
            · rw [canonicalSig, List.length_map, sortedSelection,
                List.length_insertionSort, hlen]
            · intro x hx
              rw [canonicalSig, List.mem_map] at hx
              obtain ⟨t, ht, hte⟩ := hx
              have ht2 : t ∈ sel := by
                rw [sortedSelection, List.mem_insertionSort] at ht
                exact ht
              rcases selectTraits_mem numIns st.usage rnd _ _ _ _ _ _ hsel2 t ht2 with
                hc0 | ⟨g, hg, htg⟩
              · cases hc0
              · have hg2 : g ∈ info.map (·.2) :=
                  (permOfSeed_perm (rnd pos) (info.map (·.2))).mem_iff.mp hg
                obtain ⟨p, hp, hpe⟩ := List.mem_map.mp hg2
                rw [allPairs, List.mem_flatten]
                refine ⟨p.2.map (fun u => (u.type, u.name)), ?_, ?_⟩
                · exact List.mem_map.mpr ⟨p, hp, rfl⟩
                · rw [← hte]
                  exact List.mem_map.mpr ⟨t, by rw [hpe]; exact htg, rfl⟩
          have hcnt2 : ((tuples info.length (allPairs info)).dedup).countP
                (fun s => decide (s ∈ st.hashes)) + 1
              ≤ ((tuples info.length (allPairs info)).dedup).countP
                (fun s => decide (s ∈ canonicalSig info sel :: st.hashes)) := by
            refine countP_lt_of_mem _ _ ?_ _ (canonicalSig info sel) hsig ?_ ?_
            · intro x hx
              simp only [decide_eq_true_eq] at hx ⊢
              exact List.mem_cons_of_mem _ hx
            · simp [hdup]
            · simp
          have hlen1 : ((tuples info.length (allPairs info)).dedup).countP
              (fun s => decide (s ∈ st.hashes))
              ≤ ((tuples info.length (allPairs info)).dedup).length :=
            List.countP_le_length _
          have hlen2 : ((tuples info.length (allPairs info)).dedup).countP
              (fun s => decide (s ∈ canonicalSig info sel :: st.hashes))
              ≤ ((tuples info.length (allPairs info)).dedup).length :=
            List.countP_le_length _
          refine ih _ attempts pos3 hat ?_ h
          show (10000 - attempts) +
              (((tuples info.length (allPairs info)).dedup).length -
                ((tuples info.length (allPairs info)).dedup).countP
                  (fun s => decide (s ∈ canonicalSig info sel :: st.hashes))) ≤ k
          omega

/-- The whole run is total at the explicit fuel `10000` plus the number of
distinct candidate signatures. -/
theorem genLoop_total (info : TraitsInfo) (m : TraitsMapping) (numIns : Nat)
    (rnd : Nat → Nat) :
    ∀ (n : Nat) (st : GenState) (pos : Nat),
      genLoop info m numIns rnd
        (10000 + ((tuples info.length (allPairs info)).dedup).length) n st pos ≠ none := by
  intro n
  induction n with
  | zero => intro st pos h; simp [genLoop] at h
  | succ k ih =>
    intro st pos h
    simp only [genLoop] at h
    cases hitem : itemLoop info m numIns rnd
        (10000 + ((tuples info.length (allPairs info)).dedup).length) st 0 pos with
    | none =>
      exact itemLoop_total info m numIns rnd _ st 0 pos (by omega) (by omega) hitem
    | some trip =>
      rw [hitem] at h
      obtain ⟨flag, st2, pos3⟩ := trip
      cases flag
      · cases h
      · exact ih st2 pos3 h

/-- Claim C7: for every catalog, mapping, target count, and randomness
oracle, generation terminates and returns a result — each item either
commits, or the 10000-attempt threshold triggers the early-return path with
the partial collection — never looping indefinitely.  The unbounded
`while True` loop is embedded with explicit unrolling fuel, and the fuel
`10000` plus the number of distinct candidate signatures is always enough:
every retry iteration either advances the per-item attempt counter towards
the abandonment threshold or registers a previously unseen signature, of
which only finitely many exist. -/
theorem generation_terminates (info : TraitsInfo) (m : TraitsMapping)
    (numIns : Nat) (rnd : Nat → Nat) (pos : Nat) :
    ∃ res : GenResult, generate_inscriptions info m numIns
      (10000 + ((tuples info.length (allPairs info)).dedup).length) rnd pos = some res := by
  cases hrun : generate_inscriptions info m numIns
      (10000 + ((tuples info.length (allPairs info)).dedup).length) rnd pos with
  | none => exact absurd hrun (genLoop_total info m numIns rnd numIns (initState info) pos)
  | some res => exact ⟨res, rfl⟩
